import Mathlib

set_option maxRecDepth 100000

/-!
Verification of the CTE decomposition engine (`decompose.py`).

The engine takes one SQL statement, extracts its top-level CTEs, builds a
dependency graph between the CTEs and the outer query, topologically sorts
the graph, and emits one `CREATE OR REPLACE TEMP TABLE` statement per CTE
followed by a final statement.  SQL parsing and rendering are owned by an
external parser library; we model its output as a `ParsedTree` value that
records exactly the data the engine reads off the tree:
- the ordered list of top-level CTEs, each with its alias, the rendered SQL
  text of its body, and the list of table names the parser finds in the body
  (`cte.this.find_all(exp.Table)`);
- the list of table names found under the first `SELECT` node of the tree
  (`parsed.find(exp.Select)` followed by `find_all(exp.Table)`), `none` when
  the tree has no `SELECT` node;
- whether some subquery node carries its own CTE list;
- the rendered SQL of the tree after its WITH clause has been removed.

The raw SQL text is modelled as the `String` it is.  The regular-expression
tests and substitutions of the Python code (`re.search`, `re.findall`,
`re.sub`, `str.replace`) are implemented character by character below with
the exact semantics of the patterns used (ASCII word characters, as all the
identifiers involved are ASCII).  `graphlib.TopologicalSorter.static_order`
is modelled by a layered Kahn construction that produces the same layers
(each round outputs every node all of whose predecessors are already out);
this agrees with `graphlib` up to the order inside one layer, and on every
concrete graph used in a witness or counterexample below the produced
sequence coincides with the one `graphlib` returns.
-/

namespace Decomp

/-- ASCII word character, the `\w` class of the patterns used by the code
(all identifiers handled by the engine are ASCII). -/
def isWordChar (c : Char) : Bool :=
  c.isAlpha || c.isDigit || c = '_'

/-- Python `\s` whitespace class (ASCII part). -/
def isSpaceChar (c : Char) : Bool :=
  c = ' ' || c = '\t' || c = '\n' || c = '\x0d' || c = '\x0b' || c = '\x0c'

/-- Case-insensitive character comparison (ASCII case folding). -/
def charCI (a b : Char) : Bool :=
  a.toLower = b.toLower

/-- Python `str.lower()` for the ASCII identifiers the engine handles. -/
def lowerStr (s : String) : String :=
  ⟨s.data.map Char.toLower⟩

/-- Python `str.upper()` for the ASCII identifiers the engine handles. -/
def upperStr (s : String) : String :=
  ⟨s.data.map Char.toUpper⟩

/-- Case-insensitively strip `pat` from the front of `s`; return the rest. -/
def stripCI : List Char → List Char → Option (List Char)
  | [], s => some s
  | _ :: _, [] => none
  | p :: ps, c :: cs => if charCI p c then stripCI ps cs else none

/-- `true` when the character (if any) does not belong to `\w`:
a word-boundary test for the position just before or just after a token. -/
def boundary : Option Char → Bool
  | none => true
  | some c => !isWordChar c

/-- Characters of the word `WITH`. -/
def withWord : List Char := ['W', 'I', 'T', 'H']

/-- Characters of the word `RECURSIVE`. -/
def recursiveWord : List Char := ['R', 'E', 'C', 'U', 'R', 'S', 'I', 'V', 'E']

/-- Does `\bWITH\s+RECURSIVE\b` (case-insensitive) match at the start of
`s`, the previous character being `prev`? -/
def withRecursiveAt (prev : Option Char) (s : List Char) : Bool :=
  boundary prev &&
  match stripCI withWord s with
  | none => false
  | some rest =>
    match rest with
    | [] => false
    | c :: cs =>
      isSpaceChar c &&
      (let rest2 := cs.dropWhile isSpaceChar
       match stripCI recursiveWord rest2 with
       | none => false
       | some rest3 => boundary rest3.head?)

/-- Scan of `re.search(r'\bWITH\s+RECURSIVE\b', sql, re.IGNORECASE)`. -/
def hasWithRecursiveAux (prev : Option Char) : List Char → Bool
  | [] => false
  | c :: cs => withRecursiveAt prev (c :: cs) || hasWithRecursiveAux (some c) cs

/-- Model of `re.search(r'\bWITH\s+RECURSIVE\b', sql, re.IGNORECASE)`. -/
def hasWithRecursive (sql : String) : Bool :=
  hasWithRecursiveAux none sql.toList

/-- Does `\bWITH\b` (case-insensitive) match at the start of `s`? -/
def withWordAt (prev : Option Char) (s : List Char) : Bool :=
  boundary prev &&
  match stripCI withWord s with
  | none => false
  | some rest => boundary rest.head?

/-- Scan counting the matches of `\bWITH\b`. -/
def countWithAux (prev : Option Char) : List Char → Nat
  | [] => 0
  | c :: cs => (if withWordAt prev (c :: cs) then 1 else 0) + countWithAux (some c) cs

/-- Model of `len(re.findall(r'\bWITH\b', sql, re.IGNORECASE))`.  The
matches of this pattern can never overlap, so counting the match positions
is exactly the number of matches `findall` returns. -/
def countWith (sql : String) : Nat :=
  countWithAux none sql.toList

/-- One pass of `re.sub(rf'"({name})"', upper, sql, flags=re.IGNORECASE)`:
scan left to right; wherever a double quote, the name (case-insensitively)
and a closing double quote follow, emit `upper` and resume after the
closing quote; otherwise copy the character.  The fuel argument only pays
for termination: every step consumes at least one source character, so any
fuel of at least the source length gives the scan of the whole string. -/
def subQuotedF (name upper : List Char) : Nat → List Char → List Char
  | _, [] => []
  | 0, s => s
  | fuel + 1, c :: cs =>
    if c = '"' then
      match stripCI name cs with
      | some ('"' :: rest) => upper ++ subQuotedF name upper fuel rest
      | _ => c :: subQuotedF name upper fuel cs
    else c :: subQuotedF name upper fuel cs

/-- The quoted-name substitution pass on a whole string. -/
def subQuoted (name upper s : List Char) : List Char :=
  subQuotedF name upper s.length s

/-- Python `str.replace(pat, repl)` for a non-empty `pat`: leftmost,
non-overlapping, resuming after each replacement.  An empty `pat` is
treated as matching nowhere (the engine only ever passes quoted names,
which are non-empty).  Fuel as in `subQuotedF`. -/
def strReplaceF (pat repl : List Char) : Nat → List Char → List Char
  | _, [] => []
  | 0, s => s
  | fuel + 1, c :: cs =>
    match pat with
    | [] => c :: strReplaceF pat repl fuel cs
    | p :: ps =>
      if (p :: ps).isPrefixOf (c :: cs) then
        repl ++ strReplaceF pat repl fuel ((c :: cs).drop (p :: ps).length)
      else
        c :: strReplaceF pat repl fuel cs

/-- Python `str.replace(pat, repl)` on a whole string. -/
def strReplaceL (pat repl s : List Char) : List Char :=
  strReplaceF pat repl s.length s

/-- `true` when the source character before or after a candidate match
satisfies the negative look-around `(?<!["\w])` / `(?!["\w])`. -/
def looseEdge : Option Char → Bool
  | none => true
  | some c => !(isWordChar c || c = '"')

/-- One pass of
`re.sub(rf'(?<!["\w]){name}(?!["\w])', upper, sql, flags=re.IGNORECASE)`:
`prev` is the previous character of the source string (`none` at the start
of the string).  An empty `name` is treated as matching nowhere.  Fuel as
in `subQuotedF`. -/
def subUnquotedF (name upper : List Char) : Nat → Option Char → List Char → List Char
  | _, _, [] => []
  | 0, _, s => s
  | fuel + 1, prev, c :: cs =>
    match stripCI name (c :: cs) with
    | some rest =>
      if name.length ≠ 0 ∧ looseEdge prev ∧ looseEdge rest.head? then
        upper ++ subUnquotedF name upper fuel (((c :: cs).take name.length).getLast?) rest
      else
        c :: subUnquotedF name upper fuel (some c) cs
    | none => c :: subUnquotedF name upper fuel (some c) cs

/-- The word-bounded unquoted substitution pass on a whole string. -/
def subUnquoted (name upper : List Char) (prev : Option Char) (s : List Char) : List Char :=
  subUnquotedF name upper s.length prev s

/-- One iteration of the loop body of `_normalize_cte_references` for one
CTE name: the case-insensitive quoted substitution, the three exact
`str.replace` calls, then the word-bounded unquoted substitution. -/
def normalizeOne (sql : List Char) (name : String) : List Char :=
  let n := name.toList
  let up := (upperStr name).toList
  let low := (lowerStr name).toList
  let r1 := subQuoted n up sql
  let r2 := strReplaceL ('"' :: (n ++ ['"'])) up r1
  let r3 := strReplaceL ('"' :: (up ++ ['"'])) up r2
  let r4 := strReplaceL ('"' :: (low ++ ['"'])) up r3
  subUnquoted n up none r4

/-- `SQLDecomposer._normalize_cte_references`.  The Python code iterates
over the set of CTE names in unspecified set order; the model takes the
names as a list and folds over it in list order. -/
def normalize_cte_references (sql : String) (cteSet : List String) : String :=
  ⟨cteSet.foldl normalizeOne sql.toList⟩

/-- One top-level CTE as read off the parsed tree: `cte.alias`, the
rendered SQL of `cte.this`, and the names of the `exp.Table` nodes that
`cte.this.find_all(exp.Table)` yields, in order. -/
structure CTE where
  aliasName : String
  bodySql : String
  bodyTables : List String
deriving Repr, DecidableEq

/-- The data the engine reads from the parser's tree for one statement. -/
structure ParsedTree where
  /-- `parsed.ctes`, in source order. -/
  ctes : List CTE
  /-- Table names under `parsed.find(exp.Select)`, or `none` when the tree
  has no `SELECT` node.  When the whole statement is one `SELECT` carrying
  the WITH clause (the common case) this covers the CTE bodies as well. -/
  mainSelectTables : Option (List String)
  /-- Whether some `exp.Subquery` node of the tree has its own CTE list. -/
  subqueryHasCtes : Bool
  /-- Rendering of a copy of the tree after popping its WITH clause. -/
  finalSql : String
deriving Repr, DecidableEq

/-- A single decomposed query step (`DecomposedQuery` of the source). -/
structure DecomposedQuery where
  name : String
  sql : String
  dependencies : List String
deriving Repr, DecidableEq

/-- Error raised by the topological sorter (`graphlib.CycleError`). -/
inductive DecomposeError where
  | cycleError
deriving Repr, DecidableEq

/-- Insert-or-replace for insertion-ordered dictionaries: replacing keeps
the key's position, like assignment into a Python `dict`. -/
def alistUpsert {α : Type} (k : String) (v : α) : List (String × α) → List (String × α)
  | [] => [(k, v)]
  | (k2, v2) :: rest =>
    if k2 = k then (k, v) :: rest else (k2, v2) :: alistUpsert k v rest

/-- Deduplication keeping the first occurrence of each element. -/
def dedupFirstAux (seen : List String) : List String → List String
  | [] => []
  | x :: xs => if x ∈ seen then dedupFirstAux seen xs else x :: dedupFirstAux (x :: seen) xs

/-- Deduplication keeping the first occurrence of each element. -/
def dedupFirst (l : List String) : List String := dedupFirstAux [] l

/-- The set `cte_set` of CTE aliases, as a duplicate-free list. -/
def cteAliases (t : ParsedTree) : List String :=
  dedupFirst (t.ctes.map (·.aliasName))

/-- `cte_lower_to_original[low]`: the canonical original-case alias for a
lower-cased name.  The Python dict comprehension over the set keeps the
last binding for a duplicated lower-case key; aliases are unique up to
case in any well-formed query, making the choice immaterial. -/
def lowerToOriginal (names : List String) (low : String) : Option String :=
  names.reverse.find? (fun n => lowerStr n = low)

/-- `SQLDecomposer._check_skip_conditions` (the boolean). -/
def check_skip_conditions (raw : String) (t : ParsedTree) : Bool :=
  hasWithRecursive raw || decide (1 < countWith raw) || t.subqueryHasCtes

/-- The `_skip_reason` recorded by `_check_skip_conditions`: the checks run
in order and the first match wins. -/
def skip_reason (raw : String) (t : ParsedTree) : String :=
  if hasWithRecursive raw then "WITH RECURSIVE detected"
  else if 1 < countWith raw then "Nested WITH clauses detected"
  else if t.subqueryHasCtes then "CTEs inside subquery"
  else ""

/-- `SQLDecomposer._detect_recursive_ctes`: the aliases of the CTEs whose
body contains a table reference case-insensitively equal to the CTE's own
name. -/
def detect_recursive_ctes (t : ParsedTree) : List String :=
  (t.ctes.filter fun c =>
    c.bodyTables.any fun tb => lowerStr tb = lowerStr c.aliasName).map (·.aliasName)

/-- Fold a list into an insertion-ordered dictionary, one upsert per
element, as Python dict assignment in a loop does. -/
def upsertFold {α β : Type} (key : α → String) (val : α → β)
    (l : List α) (acc : List (String × β)) : List (String × β) :=
  l.foldl (fun a c => alistUpsert (key c) (val c) a) acc

/-- The `_ctes` dictionary: alias to rendered body. -/
def ctesDict (t : ParsedTree) : List (String × String) :=
  upsertFold (fun c => c.aliasName) (fun c => c.bodySql) t.ctes []

/-- The dependency list computed for one CTE: referenced CTE names mapped
to canonical case, self-references excluded, deduplicated (`list(set(_))`;
the Python set's iteration order is unspecified, the model keeps one
representative per name). -/
def cteDeps (aliases : List String) (c : CTE) : List String :=
  (c.bodyTables.filterMap fun tb =>
    let tl := lowerStr tb
    match lowerToOriginal aliases tl with
    | some orig => if tl ≠ lowerStr c.aliasName then some orig else none
    | none => none).dedup

/-- The final query's dependency list: table names under the first
`SELECT` node that name a CTE, deduplicated. -/
def finalDeps (aliases : List String) (tbls : List String) : List String :=
  (tbls.filterMap fun tb => lowerToOriginal aliases (lowerStr tb)).dedup

/-- The `_dependencies` dictionary: one entry per CTE in source order,
then the `__FINAL__` entry when the tree has a `SELECT` node. -/
def depsDict (t : ParsedTree) : List (String × List String) :=
  let aliases := cteAliases t
  let base := upsertFold (fun c => c.aliasName) (fun c => cteDeps aliases c) t.ctes []
  match t.mainSelectTables with
  | some tbls => alistUpsert "__FINAL__" (finalDeps aliases tbls) base
  | none => base

/-- `_build_queries` line 184-186: add any CTE missing from the
dependency dictionary as a node with no prerequisites. -/
def addMissing (cteSet : List String) (g : List (String × List String)) :
    List (String × List String) :=
  cteSet.foldl (fun acc n => if (acc.lookup n).isSome then acc else acc ++ [(n, [])]) g

/-- The dependency graph handed to the topological sorter. -/
def builtGraph (t : ParsedTree) : List (String × List String) :=
  addMissing (cteAliases t) (depsDict t)

/-- All graph nodes in first-encounter order: for each entry, the key and
then its predecessors, exactly the node-registration order of
`graphlib.TopologicalSorter.__init__`. -/
def nodesOf (g : List (String × List String)) : List String :=
  dedupFirst (g.flatMap fun kv => kv.1 :: kv.2)

/-- The prerequisites the graph records for a node. -/
def predsOf (g : List (String × List String)) (n : String) : List String :=
  (g.lookup n).getD []

/-- One Kahn layer: the nodes not yet emitted all of whose prerequisites
have been emitted. -/
def readyNodes (g : List (String × List String)) (done : List String) : List String :=
  (nodesOf g).filter fun n =>
    !(done.contains n) && (predsOf g n).all fun p => done.contains p

/-- Layered Kahn iteration: append one full layer per round. -/
def kahnGo (g : List (String × List String)) : Nat → List String → List String
  | 0, done => done
  | fuel + 1, done =>
    let b := readyNodes g done
    if b.isEmpty then done else kahnGo g fuel (done ++ b)

/-- Model of `list(TopologicalSorter(graph).static_order())`: emit the
graph layer by layer; if some node is never emitted the graph has a cycle
and `graphlib` raises `CycleError`.  The layers coincide with the batches
`graphlib` yields; only the order inside one layer may differ from
`graphlib`'s (implementation-defined) tie-break. -/
def topoSort (g : List (String × List String)) : Except DecomposeError (List String) :=
  let order := kahnGo g ((nodesOf g).length + 1) []
  if order.length = (nodesOf g).length then .ok order else .error .cycleError

/-- The step emitted for one node of the execution order (`_build_queries`
line 199-216): the sentinel becomes the `FINAL_RESULT` step, a CTE node
becomes its materialization statement, anything else is dropped. -/
def emitQuery (finalSqlNorm : String) (ctes : List (String × String))
    (deps : List (String × List String)) (cteSet : List String) (n : String) :
    Option DecomposedQuery :=
  if n = "__FINAL__" then
    some ⟨"FINAL_RESULT", finalSqlNorm, (deps.lookup "__FINAL__").getD []⟩
  else
    match ctes.lookup n with
    | some body =>
      some ⟨n, "CREATE OR REPLACE TEMP TABLE " ++ upperStr n ++ " AS\n" ++
              normalize_cte_references body cteSet,
            (deps.lookup n).getD []⟩
    | none => none

/-- The observable state of a fully constructed `SQLDecomposer`. -/
structure DecomposerState where
  ctes : List (String × String)
  dependencies : List (String × List String)
  queries : List DecomposedQuery
  recursiveCtes : List String
  hasRecursive : Bool
  skipDecomposition : Bool
  skipReason : String
deriving Repr, DecidableEq

/-- `SQLDecomposer.__init__` / `_parse` / `_build_queries` over the raw
SQL text and the parsed tree: the skip checks, CTE extraction, recursive
detection, dependency building, topological sort and emission.  A
`CycleError` raised by the sorter propagates out of the constructor, so
the error case carries no state at all. -/
def decompose (raw : String) (t : ParsedTree) : Except DecomposeError DecomposerState :=
  if check_skip_conditions raw t then
    .ok { ctes := [], dependencies := [], queries := [⟨"FINAL_RESULT", raw, []⟩],
          recursiveCtes := [], hasRecursive := false, skipDecomposition := true,
          skipReason := skip_reason raw t }
  else
    let aliases := cteAliases t
    let ctesD := ctesDict t
    let recs := detect_recursive_ctes t
    let depsD := depsDict t
    if recs.isEmpty then
      match topoSort (addMissing aliases depsD) with
      | .error e => .error e
      | .ok order =>
        let finalSqlNorm := normalize_cte_references t.finalSql aliases
        .ok { ctes := ctesD, dependencies := depsD,
              queries := order.filterMap (emitQuery finalSqlNorm ctesD depsD aliases),
              recursiveCtes := recs, hasRecursive := false,
              skipDecomposition := false, skipReason := "" }
    else
      .ok { ctes := ctesD, dependencies := depsD,
            queries := [⟨"FINAL_RESULT", raw, []⟩],
            recursiveCtes := recs, hasRecursive := true,
            skipDecomposition := false, skipReason := "" }

/-! ### The topological sorter: ordering guarantees and cycle behaviour -/
/-- `a` is a recorded direct prerequisite of `b`. -/
def PredEdge (g : List (String × List String)) (a b : String) : Prop :=
  a ∈ predsOf g b

instance (g : List (String × List String)) (a b : String) : Decidable (PredEdge g a b) :=
  inferInstanceAs (Decidable (a ∈ predsOf g b))

/-- `a` is a direct or transitive prerequisite of `b`. -/
def ReachesG (g : List (String × List String)) (a b : String) : Prop :=
  Relation.TransGen (PredEdge g) a b

/-- No node is its own transitive prerequisite. -/
def Acyclic (g : List (String × List String)) : Prop :=
  ∀ n, ¬ ReachesG g n n

/-- The invariant the Kahn iteration maintains on the emitted prefix. -/
structure KahnInv (g : List (String × List String)) (done : List String) : Prop where
  nodup : done.Nodup
  sub : ∀ n ∈ done, n ∈ nodesOf g
  resp : ∀ i : Nat, ∀ hi : i < done.length, ∀ p ∈ predsOf g (done.get ⟨i, hi⟩),
    ∃ j : Nat, ∃ hj : j < done.length, j < i ∧ done.get ⟨j, hj⟩ = p

/-! ### Concrete inputs used by witnesses and counterexamples

Each `ParsedTree` below models the sqlglot parse of the SQL text named
next to it, recording the aliases, rendered bodies, table references,
first-`SELECT` table references and WITH-stripped rendering the engine
reads off the tree. -/
/-- `WITH RECURSIVE t AS (SELECT 1) SELECT * FROM t` -/
def skipRaw : String := "WITH RECURSIVE t AS (SELECT 1) SELECT * FROM t"

/-- Parse of `skipRaw`. -/
def skipTree : ParsedTree :=
  { ctes := [⟨"t", "SELECT 1", []⟩],
    mainSelectTables := some ["t"],
    subqueryHasCtes := false,
    finalSql := "SELECT * FROM t" }

/-- `WITH t AS (SELECT * FROM t WHERE x > 1) SELECT * FROM t` -/
def recRaw : String := "WITH t AS (SELECT * FROM t WHERE x > 1) SELECT * FROM t"

/-- Parse of `recRaw`: the body of `t` references `t` itself. -/
def recTree : ParsedTree :=
  { ctes := [⟨"t", "SELECT * FROM t WHERE x > 1", ["t"]⟩],
    mainSelectTables := some ["t", "t"],
    subqueryHasCtes := false,
    finalSql := "SELECT * FROM t" }

/-- `WITH a AS (SELECT 1 AS x), b AS (SELECT x FROM a), c AS (SELECT x
FROM a), d AS (SELECT b.x FROM b JOIN c ON b.x = c.x) SELECT * FROM d` -/
def diamondRaw : String :=
  "WITH a AS (SELECT 1 AS x), b AS (SELECT x FROM a), c AS (SELECT x FROM a), d AS (SELECT b.x FROM b JOIN c ON b.x = c.x) SELECT * FROM d"

/-- Parse of `diamondRaw`: the diamond dependency graph of the spec.  The
statement is a single `SELECT` carrying the WITH clause, so the table
references under the first `SELECT` cover the CTE bodies as well. -/
def diamondTree : ParsedTree :=
  { ctes := [⟨"a", "SELECT 1 AS x", []⟩,
             ⟨"b", "SELECT x FROM a", ["a"]⟩,
             ⟨"c", "SELECT x FROM a", ["a"]⟩,
             ⟨"d", "SELECT b.x FROM b JOIN c ON b.x = c.x", ["b", "c"]⟩],
    mainSelectTables := some ["a", "a", "b", "c", "d"],
    subqueryHasCtes := false,
    finalSql := "SELECT * FROM d" }

/-- `WITH a AS (SELECT 1), b AS (SELECT * FROM a) SELECT 2 UNION SELECT *
FROM b` -/
def unionRaw : String :=
  "WITH a AS (SELECT 1), b AS (SELECT * FROM a) SELECT 2 UNION SELECT * FROM b"

/-- Parse of `unionRaw`: the root of the tree is the set operation, so
`find(exp.Select)` returns only the first branch `SELECT 2`, which
references no table at all — `b` never enters the sentinel's dependency
set. -/
def unionTree : ParsedTree :=
  { ctes := [⟨"a", "SELECT 1", []⟩, ⟨"b", "SELECT * FROM a", ["a"]⟩],
    mainSelectTables := some [],
    subqueryHasCtes := false,
    finalSql := "SELECT 2 UNION SELECT * FROM B" }

/-- `WITH __FINAL__ AS (SELECT 1), b AS (SELECT * FROM __FINAL__) SELECT *
FROM b` -/
def sentinelRaw : String :=
  "WITH __FINAL__ AS (SELECT 1), b AS (SELECT * FROM __FINAL__) SELECT * FROM b"

/-- Parse of `sentinelRaw`: a CTE whose alias collides with the reserved
sentinel key. -/
def sentinelTree : ParsedTree :=
  { ctes := [⟨"__FINAL__", "SELECT 1", []⟩,
             ⟨"b", "SELECT * FROM __FINAL__", ["__FINAL__"]⟩],
    mainSelectTables := some ["__FINAL__", "b"],
    subqueryHasCtes := false,
    finalSql := "SELECT * FROM b" }

/-- `WITH a AS (SELECT * FROM b), b AS (SELECT * FROM a) SELECT * FROM a` -/
def cycleRaw : String :=
  "WITH a AS (SELECT * FROM b), b AS (SELECT * FROM a) SELECT * FROM a"

/-- Parse of `cycleRaw`: two CTEs referencing each other. -/
def cycleTree : ParsedTree :=
  { ctes := [⟨"a", "SELECT * FROM b", ["b"]⟩, ⟨"b", "SELECT * FROM a", ["a"]⟩],
    mainSelectTables := some ["b", "a", "a"],
    subqueryHasCtes := false,
    finalSql := "SELECT * FROM a" }

/-- `SELECT * FROM employees` -/
def plainRaw : String := "SELECT * FROM employees"

/-- Parse of `plainRaw`: no CTE at all. -/
def plainTree : ParsedTree :=
  { ctes := [], mainSelectTables := some ["employees"], subqueryHasCtes := false,
    finalSql := "SELECT * FROM employees" }

/-- `CREATE TABLE t (x INT)` -/
def createRaw : String := "CREATE TABLE t (x INT)"

/-- Parse of `createRaw`: a statement with no `SELECT` node anywhere, so
`parsed.find(exp.Select)` is `None`. -/
def createTree : ParsedTree :=
  { ctes := [], mainSelectTables := none, subqueryHasCtes := false,
    finalSql := "CREATE TABLE t (x INT)" }

instance : DecidableEq (Except DecomposeError DecomposerState) := fun a b =>
  match a, b with
  | .ok x, .ok y =>
    if h : x = y then isTrue (by rw [h]) else isFalse (fun hh => h (by cases hh; rfl))
  | .error x, .error y =>
    if h : x = y then isTrue (by rw [h]) else isFalse (fun hh => h (by cases hh; rfl))
  | .ok _, .error _ => isFalse (fun hh => by cases hh)
  | .error _, .ok _ => isFalse (fun hh => by cases hh)

/-- The full decomposer state produced for the diamond query. -/
def diamondState : DecomposerState :=
  { ctes := [("a", "SELECT 1 AS x"), ("b", "SELECT x FROM a"),
             ("c", "SELECT x FROM a"), ("d", "SELECT b.x FROM b JOIN c ON b.x = c.x")],
    dependencies := [("a", []), ("b", ["a"]), ("c", ["a"]), ("d", ["b", "c"]),
                     ("__FINAL__", ["a", "b", "c", "d"])],
    queries := [⟨"a", "CREATE OR REPLACE TEMP TABLE A AS\nSELECT 1 AS x", []⟩,
                ⟨"b", "CREATE OR REPLACE TEMP TABLE B AS\nSELECT x FROM A", ["a"]⟩,
                ⟨"c", "CREATE OR REPLACE TEMP TABLE C AS\nSELECT x FROM A", ["a"]⟩,
                ⟨"d", "CREATE OR REPLACE TEMP TABLE D AS\nSELECT B.x FROM B JOIN C ON B.x = C.x",
                  ["b", "c"]⟩,
                ⟨"FINAL_RESULT", "SELECT * FROM D", ["a", "b", "c", "d"]⟩],
    recursiveCtes := [], hasRecursive := false, skipDecomposition := false,
    skipReason := "" }

/-! ### Character classes, case folding and tokenization

These support the statement and proof of the normalization claim: ASCII
case-folding facts about `Char.toLower` / `Char.toUpper`, case-insensitive
list equality, and the decomposition of a quote-free SQL fragment into
maximal identifier-character runs and single other characters. -/
/-- Case-insensitive equality of character lists. -/
def ciEqL : List Char → List Char → Bool
  | [], [] => true
  | a :: as2, b :: bs => charCI a b && ciEqL as2 bs
  | _, _ => false

/-- Tokenize a character list into maximal runs of identifier characters
and single non-identifier characters.  This expresses the claim's
"occurrence bounded by non-identifier characters". -/
def tokens : List Char → List (List Char)
  | [] => []
  | c :: cs =>
    if h : isWordChar c then
      ((c :: cs).takeWhile isWordChar) :: tokens ((c :: cs).dropWhile isWordChar)
    else
      [c] :: tokens cs
termination_by s => s.length
decreasing_by
  all_goals simp_wf
  · have hle : (cs.dropWhile isWordChar).length ≤ cs.length :=
      (List.dropWhile_sublist isWordChar).length_le
    rw [List.dropWhile_cons]
    simp only [h, if_true]
    omega

/-- The substitution of one CTE name on one token, as the claim describes
it: a maximal identifier run equal to the name up to case becomes the
upper-cased name. -/
def substOne (n up tok : List Char) : List Char :=
  if ciEqL tok n then up else tok

/-- The substitution of a set of CTE names on one token: the first name
the token matches case-insensitively is replaced by its upper-cased form. -/
def substTok (names : List String) (tok : List Char) : List Char :=
  match names.find? (fun m => ciEqL tok m.toList) with
  | some m => (upperStr m).toList
  | none => tok

/-- A double-quoted occurrence of `name` (in any casing) somewhere in the
string: the claim requires normalization to leave none behind. -/
def hasQuotedOccAux (name : List Char) : List Char → Bool
  | [] => false
  | c :: cs =>
    (c = '"' && (match stripCI name cs with
      | some rest => rest.head? = some '"'
      | none => false)) || hasQuotedOccAux name cs

/-- A double-quoted occurrence of `name` (in any casing) somewhere in `s`. -/
def hasQuotedOcc (name s : String) : Bool :=
  hasQuotedOccAux name.toList s.toList

/-! ### Theorems -/

theorem stripCI_length {p s r : List Char} (h : stripCI p s = some r) :
    s.length = p.length + r.length := by
  induction p generalizing s with
  | nil => simp [stripCI] at h; simp [h]
  | cons a ps ih =>
    cases s with
    | nil => simp [stripCI] at h
    | cons c cs =>
      simp only [stripCI] at h
      split at h
      · have := ih h; simp [this]; omega
      · exact absurd h (by simp)

/-! ### Dictionary and deduplication lemmas -/
theorem lookup_alistUpsert {α : Type} (k : String) (v : α) (l : List (String × α)) (n : String) :
    (alistUpsert k v l).lookup n = if n = k then some v else l.lookup n := by
  induction l with
  | nil =>
    by_cases h : n = k
    · subst h; simp [alistUpsert, List.lookup]
    · have hb : (n == k) = false := beq_eq_false_iff_ne.mpr h
      simp [alistUpsert, List.lookup, hb, h]
  | cons kv rest ih =>
    obtain ⟨k2, v2⟩ := kv
    by_cases hk : k2 = k
    · subst hk
      by_cases h : n = k2
      · subst h; simp [alistUpsert, List.lookup]
      · have hb : (n == k2) = false := beq_eq_false_iff_ne.mpr h
        simp [alistUpsert, List.lookup, hb, h]
    · by_cases h : n = k2
      · subst h
        have hb : (n == k) = false := beq_eq_false_iff_ne.mpr hk
        simp [alistUpsert, hk, List.lookup, hk]
      · have hb : (n == k2) = false := beq_eq_false_iff_ne.mpr h
        simp [alistUpsert, hk, List.lookup, hb, ih]

theorem mem_alistUpsert {α : Type} {kv : String × α} {k : String} {v : α}
    {l : List (String × α)} (h : kv ∈ alistUpsert k v l) : kv = (k, v) ∨ kv ∈ l := by
  induction l with
  | nil => simpa [alistUpsert] using h
  | cons kv2 rest ih =>
    simp only [alistUpsert] at h
    split at h
    · rcases List.mem_cons.mp h with h | h
      · exact Or.inl h
      · exact Or.inr (List.mem_cons_of_mem _ h)
    · rcases List.mem_cons.mp h with h | h
      · exact Or.inr (h ▸ List.mem_cons_self _ _)
      · rcases ih h with h | h
        · exact Or.inl h
        · exact Or.inr (List.mem_cons_of_mem _ h)

theorem lookup_mem {α : Type} {l : List (String × α)} {n : String} {v : α}
    (h : l.lookup n = some v) : (n, v) ∈ l := by
  induction l with
  | nil => simp [List.lookup] at h
  | cons kv rest ih =>
    obtain ⟨k2, v2⟩ := kv
    by_cases h2 : n = k2
    · subst h2
      simp [List.lookup] at h
      exact List.mem_cons.mpr (Or.inl (by simp [h]))
    · have hb : (n == k2) = false := beq_eq_false_iff_ne.mpr h2
      simp [List.lookup, hb] at h
      exact List.mem_cons_of_mem _ (ih h)

theorem mem_dedupFirstAux {x : String} {seen l : List String} :
    x ∈ dedupFirstAux seen l ↔ x ∈ l ∧ x ∉ seen := by
  induction l generalizing seen with
  | nil => simp [dedupFirstAux]
  | cons y ys ih =>
    by_cases h : y ∈ seen
    · rw [dedupFirstAux, if_pos h, ih]
      constructor
      · rintro ⟨h1, h2⟩
        exact ⟨List.mem_cons_of_mem _ h1, h2⟩
      · rintro ⟨h1, h2⟩
        rcases List.mem_cons.mp h1 with rfl | h1
        · exact absurd h h2
        · exact ⟨h1, h2⟩
    · rw [dedupFirstAux, if_neg h]
      constructor
      · intro hx
        rcases List.mem_cons.mp hx with rfl | hx
        · exact ⟨List.mem_cons_self _ _, h⟩
        · obtain ⟨h1, h2⟩ := ih.mp hx
          exact ⟨List.mem_cons_of_mem _ h1, fun hs => h2 (List.mem_cons_of_mem _ hs)⟩
      · rintro ⟨h1, h2⟩
        rcases List.mem_cons.mp h1 with rfl | h1
        · exact List.mem_cons_self _ _
        · by_cases hxy : x = y
          · exact hxy ▸ List.mem_cons_self _ _
          · refine List.mem_cons_of_mem _ (ih.mpr ⟨h1, fun hs => ?_⟩)
            rcases List.mem_cons.mp hs with rfl | hs
            · exact hxy rfl
            · exact h2 hs

theorem nodup_dedupFirstAux (seen l : List String) : (dedupFirstAux seen l).Nodup := by
  induction l generalizing seen with
  | nil => simp [dedupFirstAux]
  | cons y ys ih =>
    by_cases h : y ∈ seen
    · simpa [dedupFirstAux, if_pos h] using ih seen
    · simp only [dedupFirstAux, if_neg h]
      refine List.nodup_cons.mpr ⟨fun hy => ?_, ih (y :: seen)⟩
      exact (mem_dedupFirstAux.mp hy).2 (List.mem_cons_self _ _)

theorem nodup_dedupFirst (l : List String) : (dedupFirst l).Nodup :=
  nodup_dedupFirstAux [] l

theorem mem_dedupFirst {x : String} {l : List String} : x ∈ dedupFirst l ↔ x ∈ l := by
  simp [dedupFirst, mem_dedupFirstAux]

theorem nodup_nodesOf (g : List (String × List String)) : (nodesOf g).Nodup :=
  nodup_dedupFirst _

theorem predsOf_mem_nodesOf {g : List (String × List String)} {n p : String}
    (h : p ∈ predsOf g n) : p ∈ nodesOf g := by
  unfold predsOf at h
  cases hl : g.lookup n with
  | none => rw [hl] at h; simp at h
  | some ps =>
    rw [hl] at h
    simp only [Option.getD_some] at h
    have hm : (n, ps) ∈ g := lookup_mem hl
    refine mem_dedupFirst.mpr ?_
    rw [List.mem_flatMap]
    exact ⟨(n, ps), hm, List.mem_cons_of_mem _ h⟩

theorem key_mem_nodesOf {g : List (String × List String)} {n : String} {ps : List String}
    (h : g.lookup n = some ps) : n ∈ nodesOf g := by
  refine mem_dedupFirst.mpr ?_
  rw [List.mem_flatMap]
  exact ⟨(n, ps), lookup_mem h, List.mem_cons_self _ _⟩

theorem kahnInv_nil (g : List (String × List String)) : KahnInv g [] :=
  ⟨List.nodup_nil, by simp, by simp⟩

theorem mem_readyNodes {g : List (String × List String)} {done : List String} {n : String}
    (h : n ∈ readyNodes g done) :
    n ∈ nodesOf g ∧ n ∉ done ∧ ∀ p ∈ predsOf g n, p ∈ done := by
  obtain ⟨h1, h2⟩ := List.mem_filter.mp h
  simp only [Bool.and_eq_true, Bool.not_eq_true', List.all_eq_true] at h2
  exact ⟨h1, by simpa using h2.1, fun p hp => by simpa using h2.2 p hp⟩

theorem nodup_readyNodes (g : List (String × List String)) (done : List String) :
    (readyNodes g done).Nodup :=
  (nodup_nodesOf g).filter _

theorem kahnInv_append {g : List (String × List String)} {done : List String}
    (h : KahnInv g done) : KahnInv g (done ++ readyNodes g done) := by
  set b := readyNodes g done with hb
  refine ⟨?_, ?_, ?_⟩
  · refine List.Nodup.append h.nodup (nodup_readyNodes g done) ?_
    intro x hx hxb
    exact (mem_readyNodes hxb).2.1 hx
  · intro n hn
    rcases List.mem_append.mp hn with hn | hn
    · exact h.sub n hn
    · exact (mem_readyNodes hn).1
  · intro i hi p hp
    by_cases hil : i < done.length
    · have hget : (done ++ b).get ⟨i, hi⟩ = done.get ⟨i, hil⟩ := by
        simp only [List.get_eq_getElem]
        exact List.getElem_append_left hil
      rw [hget] at hp
      obtain ⟨j, hj, hji, hjp⟩ := h.resp i hil p hp
      have hj2 : j < (done ++ b).length := by simp [List.length_append]; omega
      refine ⟨j, hj2, hji, ?_⟩
      have hgj : (done ++ b).get ⟨j, hj2⟩ = done.get ⟨j, hj⟩ := by
        simp only [List.get_eq_getElem]
        exact List.getElem_append_left hj
      rw [hgj]
      exact hjp
    · have hbl : i - done.length < b.length := by
        have := hi; simp [List.length_append] at this; omega
      have hget : (done ++ b).get ⟨i, hi⟩ = b.get ⟨i - done.length, hbl⟩ := by
        simp only [List.get_eq_getElem]
        exact List.getElem_append_right (by omega : done.length ≤ i)
      rw [hget] at hp
      have hmem : b.get ⟨i - done.length, hbl⟩ ∈ b := List.get_mem b _ _
      have hpd : p ∈ done := (mem_readyNodes hmem).2.2 p hp
      obtain ⟨⟨j, hj⟩, hjp⟩ := List.get_of_mem hpd
      have hj2 : j < (done ++ b).length := by simp [List.length_append]; omega
      refine ⟨j, hj2, by omega, ?_⟩
      have hgj : (done ++ b).get ⟨j, hj2⟩ = done.get ⟨j, hj⟩ := by
        simp only [List.get_eq_getElem]
        exact List.getElem_append_left hj
      rw [hgj]
      exact hjp

theorem kahnGo_inv {g : List (String × List String)} (fuel : Nat) (done : List String)
    (h : KahnInv g done) : KahnInv g (kahnGo g fuel done) := by
  induction fuel generalizing done with
  | zero => simpa [kahnGo] using h
  | succ fuel ih =>
    rw [kahnGo]
    by_cases hb : (readyNodes g done).isEmpty
    · simpa [hb] using h
    · simpa [hb] using ih (done ++ readyNodes g done) (kahnInv_append h)

theorem length_le_nodes {g : List (String × List String)} {done : List String}
    (h : KahnInv g done) : done.length ≤ (nodesOf g).length :=
  (List.subperm_of_subset h.nodup h.sub).length_le

theorem kahnGo_stuck {g : List (String × List String)} (fuel : Nat) (done : List String)
    (h : KahnInv g done) (hf : (nodesOf g).length < fuel + done.length) :
    readyNodes g (kahnGo g fuel done) = [] := by
  induction fuel generalizing done with
  | zero =>
    exact absurd (length_le_nodes h) (by omega)
  | succ fuel ih =>
    rw [kahnGo]
    by_cases hb : (readyNodes g done).isEmpty
    · simpa [hb] using List.isEmpty_iff.mp hb
    · have hne : readyNodes g done ≠ [] := by simpa [List.isEmpty_iff] using hb
      have hlen : 0 < (readyNodes g done).length := List.length_pos.mpr hne
      simp only [hb, if_false]
      exact ih (done ++ readyNodes g done) (kahnInv_append h)
        (by simp [List.length_append]; omega)

theorem topoSort_ok_facts {g : List (String × List String)} {order : List String}
    (h : topoSort g = .ok order) :
    KahnInv g order ∧ order.length = (nodesOf g).length ∧ readyNodes g order = [] := by
  unfold topoSort at h
  by_cases hl : (kahnGo g ((nodesOf g).length + 1) []).length = (nodesOf g).length
  · rw [if_pos hl] at h
    cases h
    refine ⟨kahnGo_inv _ _ (kahnInv_nil g), hl, ?_⟩
    exact kahnGo_stuck _ [] (kahnInv_nil g) (by omega)
  · rw [if_neg hl] at h
    cases h

theorem topoSort_ok_mem {g : List (String × List String)} {order : List String}
    (h : topoSort g = .ok order) : ∀ n, n ∈ order ↔ n ∈ nodesOf g := by
  obtain ⟨hinv, hlen, _⟩ := topoSort_ok_facts h
  have hperm : List.Perm order (nodesOf g) :=
    (List.subperm_of_subset hinv.nodup hinv.sub).perm_of_length_le (by omega)
  exact fun n => hperm.mem_iff

/-- An emitted order respects every edge: a prerequisite has a strictly
smaller index. -/
theorem topoSort_ok_indexOf_lt {g : List (String × List String)} {order : List String}
    (h : topoSort g = .ok order) {a b : String} (hb : b ∈ order) (hab : a ∈ predsOf g b) :
    a ∈ order ∧ order.indexOf a < order.indexOf b := by
  obtain ⟨hinv, _, _⟩ := topoSort_ok_facts h
  have hib : List.indexOf b order < order.length := List.indexOf_lt_length.mpr hb
  have hgb : order.get ⟨List.indexOf b order, hib⟩ = b := List.indexOf_get hib
  obtain ⟨j, hj, hji, hjp⟩ := hinv.resp _ hib a (by rw [hgb]; exact hab)
  have ha : a ∈ order := hjp ▸ List.get_mem order _ _
  have hia : List.indexOf a order < order.length := List.indexOf_lt_length.mpr ha
  have hga : order.get ⟨List.indexOf a order, hia⟩ = a := List.indexOf_get hia
  have : (⟨List.indexOf a order, hia⟩ : Fin order.length) = ⟨j, hj⟩ :=
    (List.Nodup.get_inj_iff hinv.nodup).mp (by rw [hga, hjp])
  have hja : List.indexOf a order = j := by simpa using congrArg Fin.val this
  exact ⟨ha, by omega⟩

theorem reaches_mem_order {g : List (String × List String)} {order : List String}
    (h : topoSort g = .ok order) {a b : String} (hr : ReachesG g a b) : b ∈ order := by
  have hmem := topoSort_ok_mem h
  have : b ∈ nodesOf g := by
    rcases (Relation.transGen_iff (PredEdge g) a b).mp hr with he | ⟨c, _, he⟩
    · unfold PredEdge predsOf at he
      cases hl : g.lookup b with
      | none => rw [hl] at he; simp at he
      | some ps => exact key_mem_nodesOf hl
    · unfold PredEdge predsOf at he
      cases hl : g.lookup b with
      | none => rw [hl] at he; simp at he
      | some ps => exact key_mem_nodesOf hl
  exact (hmem b).mpr this

theorem reaches_indexOf_lt {g : List (String × List String)} {order : List String}
    (h : topoSort g = .ok order) {a b : String} (hr : ReachesG g a b) :
    a ∈ order ∧ order.indexOf a < order.indexOf b := by
  induction hr with
  | single he => exact topoSort_ok_indexOf_lt h (reaches_mem_order h (Relation.TransGen.single he)) he
  | tail hr1 he ih =>
    rename_i c b2
    have hb2 : b2 ∈ order :=
      reaches_mem_order h (Relation.TransGen.tail hr1 he)
    obtain ⟨hc, hlt⟩ := topoSort_ok_indexOf_lt h hb2 he
    obtain ⟨ha, hlt2⟩ := ih
    exact ⟨ha, by omega⟩

/-- A successfully sorted graph has no cycle through any node. -/
theorem acyclic_of_topoSort_ok {g : List (String × List String)} {order : List String}
    (h : topoSort g = .ok order) : Acyclic g := by
  intro n hn
  obtain ⟨_, hlt⟩ := reaches_indexOf_lt h hn
  omega

/-- If every element of a non-empty finite set has a prerequisite inside
the set, the prerequisite relation has a cycle. -/
theorem cycle_of_all_have_pred {g : List (String × List String)} (S : List String)
    (hne : S ≠ []) (hpred : ∀ x ∈ S, ∃ y ∈ S, PredEdge g y x) :
    ∃ z, ReachesG g z z := by
  classical
  have hlen : 0 < S.length := List.length_pos.mpr hne
  have hchoice : ∀ i : Fin S.length, ∃ j : Fin S.length, PredEdge g (S.get j) (S.get i) := by
    intro i
    obtain ⟨y, hy, he⟩ := hpred (S.get i) (by obtain ⟨v, hv⟩ := i; exact List.get_mem S v hv)
    obtain ⟨j, hj⟩ := List.get_of_mem hy
    exact ⟨j, hj ▸ he⟩
  choose f hf using hchoice
  obtain ⟨i0⟩ : Nonempty (Fin S.length) := ⟨⟨0, hlen⟩⟩
  have hcard : Fintype.card (Fin S.length) < Fintype.card (Fin (S.length + 1)) := by simp
  obtain ⟨k, l, hkl, hfe⟩ :=
    Fintype.exists_ne_map_eq_of_card_lt (fun k : Fin (S.length + 1) => f^[k.val] i0) hcard
  -- Walking `m ≥ 1` steps of `f` yields a transitive prerequisite.
  have hiter : ∀ m : Nat, 0 < m → ∀ j : Fin S.length,
      ReachesG g (S.get (f^[m] j)) (S.get j) := by
    intro m
    induction m with
    | zero => omega
    | succ m ih =>
      intro _ j
      by_cases hm : 0 < m
      · have h1 : ReachesG g (S.get (f^[m] (f j))) (S.get (f j)) := ih hm (f j)
        have h2 : ReachesG g (S.get (f j)) (S.get j) := Relation.TransGen.single (hf j)
        rw [Function.iterate_succ_apply]
        exact Relation.TransGen.trans h1 h2
      · have hm0 : m = 0 := by omega
        subst hm0
        simpa using Relation.TransGen.single (hf j)
  have hklv : k.val ≠ l.val := fun he => hkl (Fin.val_injective he)
  rcases Nat.lt_or_ge k.val l.val with hkl2 | hkl2
  · have hfix : f^[l.val - k.val] (f^[k.val] i0) = f^[k.val] i0 := by
      rw [← Function.iterate_add_apply]
      have he : l.val - k.val + k.val = l.val := by omega
      rw [he, hfe]
    refine ⟨S.get (f^[k.val] i0), ?_⟩
    have h2 := hiter (l.val - k.val) (by omega) (f^[k.val] i0)
    rwa [hfix] at h2
  · have hkl3 : l.val < k.val := by omega
    have hfix : f^[k.val - l.val] (f^[l.val] i0) = f^[l.val] i0 := by
      rw [← Function.iterate_add_apply]
      have he : k.val - l.val + l.val = k.val := by omega
      rw [he, ← hfe]
    refine ⟨S.get (f^[l.val] i0), ?_⟩
    have h2 := hiter (k.val - l.val) (by omega) (f^[l.val] i0)
    rwa [hfix] at h2

/-! ### Characterizing the extracted dictionaries -/
theorem lookup_upsertFold {α β : Type} (key : α → String) (val : α → β)
    (l : List α) (acc : List (String × β)) (n : String) :
    (upsertFold key val l acc).lookup n =
      match l.reverse.find? (fun c => key c == n) with
      | some c => some (val c)
      | none => acc.lookup n := by
  induction l generalizing acc with
  | nil => simp [upsertFold]
  | cons c rest ih =>
    have hcons : upsertFold key val (c :: rest) acc
        = upsertFold key val rest (alistUpsert (key c) (val c) acc) := rfl
    rw [hcons, ih]
    simp only [List.reverse_cons, List.find?_append]
    cases hfind : rest.reverse.find? (fun c2 => key c2 == n) with
    | some c2 => simp [hfind]
    | none =>
      simp only [hfind, Option.none_or]
      by_cases h : key c = n
      · have hb : (key c == n) = true := beq_iff_eq.mpr h
        simp [List.find?, hb, lookup_alistUpsert, h]
      · have hb : (key c == n) = false := beq_eq_false_iff_ne.mpr h
        have h2 : ¬ n = key c := fun hh => h hh.symm
        simp [List.find?, hb, lookup_alistUpsert, h2]

theorem mem_upsertFold {α β : Type} {key : α → String} {val : α → β}
    {l : List α} {acc : List (String × β)} {kv : String × β}
    (h : kv ∈ upsertFold key val l acc) :
    kv ∈ acc ∨ ∃ c ∈ l, kv = (key c, val c) := by
  induction l generalizing acc with
  | nil => exact Or.inl (by simpa [upsertFold] using h)
  | cons c rest ih =>
    have h2 : kv ∈ upsertFold key val rest (alistUpsert (key c) (val c) acc) := h
    rcases ih h2 with h2 | ⟨c2, hc2, he⟩
    · rcases mem_alistUpsert h2 with h3 | h3
      · exact Or.inr ⟨c, List.mem_cons_self _ _, h3⟩
      · exact Or.inl h3
    · exact Or.inr ⟨c2, List.mem_cons_of_mem _ hc2, he⟩

theorem lookup_ctesDict (t : ParsedTree) (n : String) :
    (ctesDict t).lookup n =
      match t.ctes.reverse.find? (fun c => c.aliasName == n) with
      | some c => some c.bodySql
      | none => none := by
  unfold ctesDict
  rw [lookup_upsertFold]
  cases t.ctes.reverse.find? (fun c => c.aliasName == n) <;> rfl

theorem ctesDict_isSome_of_alias {t : ParsedTree} {n : String}
    (h : n ∈ cteAliases t) : ((ctesDict t).lookup n).isSome := by
  rw [lookup_ctesDict]
  obtain ⟨c, hc, he⟩ := List.mem_map.mp (mem_dedupFirst.mp h)
  have : (t.ctes.reverse.find? (fun c => c.aliasName == n)).isSome := by
    rw [List.find?_isSome]
    exact ⟨c, List.mem_reverse.mpr hc, beq_iff_eq.mpr he⟩
  cases hf : t.ctes.reverse.find? (fun c => c.aliasName == n) with
  | some c2 => simp
  | none => rw [hf] at this; simp at this

theorem ctesDict_some_elim {t : ParsedTree} {n : String} {b : String}
    (h : (ctesDict t).lookup n = some b) :
    ∃ c ∈ t.ctes, c.aliasName = n ∧ c.bodySql = b := by
  rw [lookup_ctesDict] at h
  cases hf : t.ctes.reverse.find? (fun c => c.aliasName == n) with
  | none => rw [hf] at h; simp at h
  | some c =>
    rw [hf] at h
    simp only [Option.some_inj] at h
    have hp := List.find?_some hf
    simp only [beq_iff_eq] at hp
    exact ⟨c, List.mem_reverse.mp (List.mem_of_find?_eq_some hf), hp, h⟩

theorem lookup_depsDict (t : ParsedTree) (n : String) :
    (depsDict t).lookup n =
      (match t.mainSelectTables with
       | some tbls =>
         if n = "__FINAL__" then
           some (finalDeps (cteAliases t) tbls)
         else
           match t.ctes.reverse.find? (fun c => c.aliasName == n) with
           | some c => some (cteDeps (cteAliases t) c)
           | none => none
       | none =>
         match t.ctes.reverse.find? (fun c => c.aliasName == n) with
         | some c => some (cteDeps (cteAliases t) c)
         | none => none) := by
  have hbase := lookup_upsertFold (fun c : CTE => c.aliasName)
    (fun c : CTE => cteDeps (cteAliases t) c) t.ctes [] n
  cases hm : t.mainSelectTables with
  | none =>
    simp only [depsDict, hm]
    rw [hbase]
    cases t.ctes.reverse.find? (fun c => c.aliasName == n) <;> simp
  | some tbls =>
    simp only [depsDict, hm]
    rw [lookup_alistUpsert]
    by_cases h : n = "__FINAL__"
    · simp [h]
    · rw [if_neg h, if_neg h, hbase]
      cases t.ctes.reverse.find? (fun c => c.aliasName == n) <;> simp

theorem mem_cteDeps {aliases : List String} {c : CTE} {p : String}
    (h : p ∈ cteDeps aliases c) : p ∈ aliases := by
  unfold cteDeps at h
  rw [List.mem_dedup] at h
  obtain ⟨tb, _, he⟩ := List.mem_filterMap.mp h
  simp only at he
  cases hf : lowerToOriginal aliases (lowerStr tb) with
  | none => rw [hf] at he; simp at he
  | some orig =>
    rw [hf] at he
    have horig : orig ∈ aliases :=
      List.mem_reverse.mp (List.mem_of_find?_eq_some hf)
    have he2 : (if lowerStr tb ≠ lowerStr c.aliasName then some orig else none) = some p := he
    by_cases hcond : lowerStr tb ≠ lowerStr c.aliasName
    · rw [if_pos hcond] at he2
      cases he2
      exact horig
    · rw [if_neg hcond] at he2
      cases he2

theorem mem_finalDeps {aliases : List String} {tbls : List String} {p : String}
    (h : p ∈ finalDeps aliases tbls) : p ∈ aliases := by
  unfold finalDeps at h
  rw [List.mem_dedup] at h
  obtain ⟨tb, _, he⟩ := List.mem_filterMap.mp h
  exact List.mem_reverse.mp (List.mem_of_find?_eq_some he)

theorem depsDict_values {t : ParsedTree} {kv : String × List String}
    (h : kv ∈ depsDict t) :
    (kv.1 = "__FINAL__" ∧ ∃ tbls, t.mainSelectTables = some tbls ∧
       kv.2 = finalDeps (cteAliases t) tbls) ∨
    ∃ c ∈ t.ctes, kv.1 = c.aliasName ∧ kv.2 = cteDeps (cteAliases t) c := by
  unfold depsDict at h
  cases hm : t.mainSelectTables with
  | none =>
    rw [hm] at h
    rcases mem_upsertFold h with h2 | ⟨c, hc, he⟩
    · simp at h2
    · exact Or.inr ⟨c, hc, by rw [he], by rw [he]⟩
  | some tbls =>
    rw [hm] at h
    rcases mem_alistUpsert h with h2 | h2
    · exact Or.inl ⟨by rw [h2], tbls, rfl, by rw [h2]⟩
    · rcases mem_upsertFold h2 with h3 | ⟨c, hc, he⟩
      · simp at h3
      · exact Or.inr ⟨c, hc, by rw [he], by rw [he]⟩

theorem mem_alias_of_depsDict_key {t : ParsedTree} {kv : String × List String}
    (h : kv ∈ depsDict t) (hne : kv.1 ≠ "__FINAL__") : kv.1 ∈ cteAliases t := by
  rcases depsDict_values h with ⟨h1, _⟩ | ⟨c, hc, he, _⟩
  · exact absurd h1 hne
  · exact mem_dedupFirst.mpr (he ▸ List.mem_map_of_mem _ hc)

theorem addMissing_of_keys {cs : List String} {g : List (String × List String)}
    (h : ∀ n ∈ cs, ((g.lookup n).isSome : Prop)) : addMissing cs g = g := by
  induction cs with
  | nil => rfl
  | cons c rest ih =>
    unfold addMissing
    rw [List.foldl_cons, if_pos (h c (List.mem_cons_self _ _))]
    exact ih fun n hn => h n (List.mem_cons_of_mem _ hn)

theorem depsDict_isSome_of_alias {t : ParsedTree} {n : String}
    (h : n ∈ cteAliases t) : ((depsDict t).lookup n).isSome := by
  obtain ⟨c, hc, he⟩ := List.mem_map.mp (mem_dedupFirst.mp h)
  have hfind : (t.ctes.reverse.find? (fun c => c.aliasName == n)).isSome := by
    rw [List.find?_isSome]
    exact ⟨c, List.mem_reverse.mpr hc, beq_iff_eq.mpr he⟩
  obtain ⟨c2, hf⟩ := Option.isSome_iff_exists.mp hfind
  rw [lookup_depsDict]
  cases hm : t.mainSelectTables with
  | none => simp [hf]
  | some tbls =>
    by_cases hfin : n = "__FINAL__"
    · simp [hfin]
    · simp [hfin, hf]

theorem builtGraph_eq_depsDict (t : ParsedTree) : builtGraph t = depsDict t :=
  addMissing_of_keys fun n hn => depsDict_isSome_of_alias hn

/-- Every node of the built graph is the sentinel or a declared CTE. -/
theorem node_classification {t : ParsedTree} {n : String}
    (hn : n ∈ nodesOf (builtGraph t)) :
    n = "__FINAL__" ∨ ((ctesDict t).lookup n).isSome := by
  rw [builtGraph_eq_depsDict] at hn
  obtain ⟨kv, hkv, hmem⟩ := List.mem_flatMap.mp (mem_dedupFirst.mp hn)
  rcases List.mem_cons.mp hmem with rfl | hval
  · rcases depsDict_values hkv with ⟨h1, _⟩ | ⟨c, hc, he, _⟩
    · exact Or.inl h1
    · exact Or.inr (ctesDict_isSome_of_alias
        (mem_dedupFirst.mpr (he ▸ List.mem_map_of_mem _ hc)))
  · rcases depsDict_values hkv with ⟨_, tbls, _, he⟩ | ⟨c, _, _, he⟩
    · exact Or.inr (ctesDict_isSome_of_alias (mem_finalDeps (he ▸ hval)))
    · exact Or.inr (ctesDict_isSome_of_alias (mem_cteDeps (he ▸ hval)))

/-- A `filterMap` whose function succeeds on every element acts as an
index-preserving `map`. -/
theorem filterMap_all_some {α β : Type} (f : α → Option β) (l : List α)
    (h : ∀ x ∈ l, (f x).isSome) :
    (l.filterMap f).length = l.length ∧
    ∀ i : Nat, ∀ hi : i < l.length, ∀ hq : i < (l.filterMap f).length,
      f (l.get ⟨i, hi⟩) = some ((l.filterMap f).get ⟨i, hq⟩) := by
  induction l with
  | nil => exact ⟨rfl, by simp⟩
  | cons x rest ih =>
    have hx := h x (List.mem_cons_self _ _)
    obtain ⟨y, hy⟩ := Option.isSome_iff_exists.mp hx
    have hrest := ih fun z hz => h z (List.mem_cons_of_mem _ hz)
    have hfm : (x :: rest).filterMap f = y :: rest.filterMap f := by
      rw [List.filterMap_cons, hy]
    constructor
    · rw [hfm]; simp [hrest.1]
    · intro i hi hq
      match i with
      | 0 => simp [hfm, hy]
      | i + 1 =>
        have hi2 : i < rest.length := by simpa using hi
        have hq2 : i < (rest.filterMap f).length := by
          rw [hfm] at hq; simpa using hq
        have := hrest.2 i hi2 hq2
        simpa [hfm] using this

/-! ### Unfolding the three construction paths -/
theorem decompose_skip {raw : String} {t : ParsedTree}
    (h : check_skip_conditions raw t = true) :
    decompose raw t = .ok
      { ctes := [], dependencies := [], queries := [⟨"FINAL_RESULT", raw, []⟩],
        recursiveCtes := [], hasRecursive := false, skipDecomposition := true,
        skipReason := skip_reason raw t } := by
  unfold decompose
  rw [if_pos h]

theorem decompose_recursive {raw : String} {t : ParsedTree}
    (hns : check_skip_conditions raw t = false)
    (hr : detect_recursive_ctes t ≠ []) :
    decompose raw t = .ok
      { ctes := ctesDict t, dependencies := depsDict t,
        queries := [⟨"FINAL_RESULT", raw, []⟩],
        recursiveCtes := detect_recursive_ctes t, hasRecursive := true,
        skipDecomposition := false, skipReason := "" } := by
  have hie : (detect_recursive_ctes t).isEmpty = false := by
    simpa [List.isEmpty_iff] using hr
  unfold decompose
  rw [if_neg (by simp [hns]), if_neg (by simp [hie])]

theorem decompose_normal {raw : String} {t : ParsedTree}
    (hns : check_skip_conditions raw t = false)
    (hnr : detect_recursive_ctes t = []) :
    decompose raw t = (topoSort (builtGraph t)).map (fun order =>
      { ctes := ctesDict t, dependencies := depsDict t,
        queries := order.filterMap (emitQuery
          (normalize_cte_references t.finalSql (cteAliases t))
          (ctesDict t) (depsDict t) (cteAliases t)),
        recursiveCtes := detect_recursive_ctes t, hasRecursive := false,
        skipDecomposition := false, skipReason := "" }) := by
  have hie : (detect_recursive_ctes t).isEmpty = true := by simp [hnr]
  unfold decompose
  rw [if_neg (by simp [hns]), if_pos (by simp [hie])]
  have hbg : addMissing (cteAliases t) (depsDict t) = builtGraph t := rfl
  rw [hbg]
  cases topoSort (builtGraph t) <;> rfl

/-! ### Claim theorems -/
/-- C2: the skip checks are evaluated in the fixed order — raw text
matches `WITH RECURSIVE` case-insensitively, then the keyword `WITH`
occurring more than once, then a subquery declaring its own CTE list — the
first match fixing the recorded reason; and any match yields the plan of
exactly one `FINAL_RESULT` step whose sql is the character-for-character
input text with an empty dependency list, with no CTE or dependency data
populated. -/
theorem C2_skip_first_match (raw : String) (t : ParsedTree)
    (h : check_skip_conditions raw t = true) :
    decompose raw t = .ok
      { ctes := [], dependencies := [],
        queries := [⟨"FINAL_RESULT", raw, []⟩],
        recursiveCtes := [], hasRecursive := false, skipDecomposition := true,
        skipReason :=
          if hasWithRecursive raw then "WITH RECURSIVE detected"
          else if 1 < countWith raw then "Nested WITH clauses detected"
          else "CTEs inside subquery" } := by
  have hreason : skip_reason raw t =
      (if hasWithRecursive raw then "WITH RECURSIVE detected"
       else if 1 < countWith raw then "Nested WITH clauses detected"
       else "CTEs inside subquery") := by
    by_cases h1 : hasWithRecursive raw
    · simp [skip_reason, h1]
    · by_cases h2 : 1 < countWith raw
      · simp [skip_reason, h1, h2]
      · have h3 : t.subqueryHasCtes = true := by
          simpa [check_skip_conditions, h1, h2] using h
        simp [skip_reason, h1, h2, h3]
  rw [decompose_skip h, hreason]

/-- Witness for C2 at `skipRaw`: the first check matches, the reason is
the `WITH RECURSIVE` one and the plan is the single verbatim step. -/
theorem C2_skip_first_match_witness :
    decompose skipRaw skipTree = .ok
      { ctes := [], dependencies := [],
        queries := [⟨"FINAL_RESULT", skipRaw, []⟩],
        recursiveCtes := [], hasRecursive := false, skipDecomposition := true,
        skipReason := "WITH RECURSIVE detected" } :=
  (C2_skip_first_match skipRaw skipTree (by rfl)).trans (by rfl)

/-- C3: when no skip condition holds and some CTE's body references a
table whose name case-insensitively equals the CTE's own alias, the
recursive flag is set and the plan is the single `FINAL_RESULT` step
carrying the unmodified original query text — nothing is decomposed. -/
theorem C3_recursive_disables_decomposition (raw : String) (t : ParsedTree)
    (hns : check_skip_conditions raw t = false)
    (hrec : ∃ c ∈ t.ctes, ∃ tb ∈ c.bodyTables, lowerStr tb = lowerStr c.aliasName) :
    ∃ s, decompose raw t = .ok s ∧ s.hasRecursive = true ∧
      s.queries = [⟨"FINAL_RESULT", raw, []⟩] := by
  have hr : detect_recursive_ctes t ≠ [] := by
    obtain ⟨c, hc, tb, htb, he⟩ := hrec
    have hcf : c ∈ t.ctes.filter
        (fun c => c.bodyTables.any fun tb => lowerStr tb = lowerStr c.aliasName) := by
      refine List.mem_filter.mpr ⟨hc, ?_⟩
      rw [List.any_eq_true]
      exact ⟨tb, htb, by simp [he]⟩
    intro hnil
    unfold detect_recursive_ctes at hnil
    rw [List.map_eq_nil_iff] at hnil
    rw [hnil] at hcf
    simp at hcf
  exact ⟨_, decompose_recursive hns hr, rfl, rfl⟩

/-- Witness for C3 at `recRaw` (the spec's self-referencing example). -/
theorem C3_recursive_disables_decomposition_witness :
    ∃ s, decompose recRaw recTree = .ok s ∧ s.hasRecursive = true ∧
      s.queries = [⟨"FINAL_RESULT", recRaw, []⟩] :=
  C3_recursive_disables_decomposition recRaw recTree (by rfl)
    ⟨⟨"t", "SELECT * FROM t WHERE x > 1", ["t"]⟩, by simp [recTree], "t", by simp, rfl⟩

/-- C10: every dependency list — every value of the dependencies mapping
and the dependencies field of every emitted step — holds each CTE name at
most once, however often the referencing body mentions it. -/
theorem C10_dependency_lists_duplicate_free (raw : String) (t : ParsedTree)
    (s : DecomposerState) (h : decompose raw t = .ok s) :
    (∀ kv ∈ s.dependencies, kv.2.Nodup) ∧ ∀ q ∈ s.queries, q.dependencies.Nodup := by
  have hdeps : ∀ kv ∈ depsDict t, (kv.2 : List String).Nodup := by
    intro kv hkv
    rcases depsDict_values hkv with ⟨_, tbls, _, he⟩ | ⟨c, _, _, he⟩
    · rw [he]; exact List.nodup_dedup _
    · rw [he]; exact List.nodup_dedup _
  by_cases hsk : check_skip_conditions raw t = true
  · rw [decompose_skip hsk] at h
    cases h
    refine ⟨fun kv hkv => by simp at hkv, fun q hq => ?_⟩
    simp at hq
    rw [hq]
    exact List.nodup_nil
  · have hns : check_skip_conditions raw t = false := Bool.eq_false_iff.mpr hsk
    by_cases hrc : detect_recursive_ctes t = []
    · rw [decompose_normal hns hrc] at h
      cases htopo : topoSort (builtGraph t) with
      | error e => rw [htopo] at h; simp [Except.map] at h
      | ok order =>
        rw [htopo] at h
        simp only [Except.map, Except.ok.injEq] at h
        cases h
        refine ⟨hdeps, fun q hq => ?_⟩
        obtain ⟨n, hn, he⟩ := List.mem_filterMap.mp hq
        unfold emitQuery at he
        by_cases hfin : n = "__FINAL__"
        · rw [if_pos hfin] at he
          cases he
          cases hl : (depsDict t).lookup "__FINAL__" with
          | none => simp [hl]
          | some v => simpa [hl] using hdeps ("__FINAL__", v) (lookup_mem hl)
        · rw [if_neg hfin] at he
          cases hb : (ctesDict t).lookup n with
          | none => rw [hb] at he; cases he
          | some body =>
            rw [hb] at he
            cases he
            cases hl : (depsDict t).lookup n with
            | none => simp [hl]
            | some v => simpa [hl] using hdeps (n, v) (lookup_mem hl)
    · rw [decompose_recursive hns hrc] at h
      cases h
      refine ⟨hdeps, fun q hq => ?_⟩
      simp at hq
      rw [hq]
      exact List.nodup_nil

/-- Witness for C10 at the diamond query. -/
theorem C10_dependency_lists_duplicate_free_witness :
    (∀ kv ∈ diamondState.dependencies, kv.2.Nodup) ∧
      ∀ q ∈ diamondState.queries, q.dependencies.Nodup :=
  C10_dependency_lists_duplicate_free diamondRaw diamondTree diamondState (by decide)

theorem lowerToOriginal_some {names : List String} {low orig : String}
    (h : lowerToOriginal names low = some orig) :
    orig ∈ names ∧ lowerStr orig = low := by
  refine ⟨List.mem_reverse.mp (List.mem_of_find?_eq_some h), ?_⟩
  have := List.find?_some h
  simpa using this

theorem mem_cteDeps_elim {aliases : List String} {c : CTE} {p : String}
    (h : p ∈ cteDeps aliases c) :
    ∃ tb ∈ c.bodyTables, lowerToOriginal aliases (lowerStr tb) = some p ∧
      lowerStr tb ≠ lowerStr c.aliasName := by
  unfold cteDeps at h
  rw [List.mem_dedup] at h
  obtain ⟨tb, htb, he⟩ := List.mem_filterMap.mp h
  simp only at he
  cases hf : lowerToOriginal aliases (lowerStr tb) with
  | none => rw [hf] at he; simp at he
  | some orig =>
    rw [hf] at he
    have he2 : (if lowerStr tb ≠ lowerStr c.aliasName then some orig else none) = some p := he
    by_cases hcond : lowerStr tb ≠ lowerStr c.aliasName
    · rw [if_pos hcond] at he2
      cases he2
      exact ⟨tb, htb, hf, hcond⟩
    · rw [if_neg hcond] at he2
      cases he2

/-- C5 counterexample: `sentinelRaw` is non-skipped and non-recursive,
yet the graph handed to the sequencer records the sentinel key
`__FINAL__` as a prerequisite of the CTE `b`, because the CTE named
`__FINAL__` collides with the reserved sentinel node.  The sentinel node
therefore has an incoming edge, contradicting the claim. -/
theorem C5_sentinel_incoming_edge_counterexample :
    check_skip_conditions sentinelRaw sentinelTree = false ∧
    detect_recursive_ctes sentinelTree = [] ∧
    (builtGraph sentinelTree).lookup "b" = some ["__FINAL__"] :=
  ⟨by rfl, by rfl, by rfl⟩

/-- C5 (amended): for every non-skipped, non-recursive input none of
whose CTEs is named exactly `__FINAL__`, the graph handed to the
sequencer contains every CTE as a node (even with an empty dependency
set), records an edge into a CTE node only for a body reference to a CTE
whose case-folded name differs from the referencing node's (self-matches
excluded), and gives the sentinel no incoming edge: no CTE lists
`__FINAL__` as a prerequisite. -/
theorem C5_graph_invariants_amended (raw : String) (t : ParsedTree)
    (hns : check_skip_conditions raw t = false)
    (hnr : detect_recursive_ctes t = [])
    (hsent : ∀ c ∈ t.ctes, c.aliasName ≠ "__FINAL__") :
    (∀ c ∈ t.ctes, (((builtGraph t).lookup c.aliasName).isSome : Prop)) ∧
    (∀ n ps, (builtGraph t).lookup n = some ps → n ≠ "__FINAL__" →
      ∀ p ∈ ps, ∃ c ∈ t.ctes, c.aliasName = n ∧
        (∃ tb ∈ c.bodyTables, lowerStr p = lowerStr tb) ∧
        lowerStr p ≠ lowerStr n ∧ ∃ c2 ∈ t.ctes, c2.aliasName = p) ∧
    (∀ n ps, (builtGraph t).lookup n = some ps → n ≠ "__FINAL__" →
      "__FINAL__" ∉ ps) := by
  have hkey : ∀ n ps, (builtGraph t).lookup n = some ps → n ≠ "__FINAL__" →
      ∃ c ∈ t.ctes, c.aliasName = n ∧ ps = cteDeps (cteAliases t) c := by
    intro n ps hl hne
    rw [builtGraph_eq_depsDict, lookup_depsDict] at hl
    have hfind : (match t.ctes.reverse.find? (fun c => c.aliasName == n) with
        | some c => some (cteDeps (cteAliases t) c)
        | none => none) = some ps := by
      cases hm : t.mainSelectTables with
      | none => rw [hm] at hl; exact hl
      | some tbls =>
        rw [hm] at hl
        have hl2 : (if n = "__FINAL__" then some (finalDeps (cteAliases t) tbls)
            else match t.ctes.reverse.find? (fun c => c.aliasName == n) with
            | some c => some (cteDeps (cteAliases t) c)
            | none => none) = some ps := hl
        rw [if_neg hne] at hl2
        exact hl2
    cases hf : t.ctes.reverse.find? (fun c => c.aliasName == n) with
    | none => rw [hf] at hfind; cases hfind
    | some c =>
      rw [hf] at hfind
      have hp := List.find?_some hf
      simp only [beq_iff_eq] at hp
      cases hfind
      exact ⟨c, List.mem_reverse.mp (List.mem_of_find?_eq_some hf), hp, rfl⟩
  refine ⟨?_, ?_, ?_⟩
  · intro c hc
    rw [builtGraph_eq_depsDict]
    have := depsDict_isSome_of_alias
      (mem_dedupFirst.mpr (List.mem_map_of_mem (·.aliasName) hc))
    simpa using this
  · intro n ps hl hne p hp
    obtain ⟨c, hc, hcn, hcd⟩ := hkey n ps hl hne
    rw [hcd] at hp
    obtain ⟨tb, htb, hto, hcase⟩ := mem_cteDeps_elim hp
    obtain ⟨hmemal, hlow⟩ := lowerToOriginal_some hto
    obtain ⟨c2, hc2, hc2a⟩ := List.mem_map.mp (mem_dedupFirst.mp hmemal)
    exact ⟨c, hc, hcn, ⟨tb, htb, hlow⟩, by rw [hlow, ← hcn]; exact hcase,
      c2, hc2, hc2a⟩
  · intro n ps hl hne hmem
    obtain ⟨c, hc, hcn, hcd⟩ := hkey n ps hl hne
    rw [hcd] at hmem
    obtain ⟨c2, hc2, hc2a⟩ :=
      List.mem_map.mp (mem_dedupFirst.mp (mem_cteDeps hmem))
    exact hsent c2 hc2 hc2a

/-- Witness for the amended C5 at the diamond query. -/
theorem C5_graph_invariants_amended_witness :
    (∀ c ∈ diamondTree.ctes, (((builtGraph diamondTree).lookup c.aliasName).isSome : Prop)) ∧
    (∀ n ps, (builtGraph diamondTree).lookup n = some ps → n ≠ "__FINAL__" →
      ∀ p ∈ ps, ∃ c ∈ diamondTree.ctes, c.aliasName = n ∧
        (∃ tb ∈ c.bodyTables, lowerStr p = lowerStr tb) ∧
        lowerStr p ≠ lowerStr n ∧ ∃ c2 ∈ diamondTree.ctes, c2.aliasName = p) ∧
    (∀ n ps, (builtGraph diamondTree).lookup n = some ps → n ≠ "__FINAL__" →
      "__FINAL__" ∉ ps) :=
  C5_graph_invariants_amended diamondRaw diamondTree (by rfl) (by rfl) (by decide)

/-- C6: for a non-skipped, non-recursive input whose dependency graph has
a multi-node cycle (two distinct nodes each a transitive prerequisite of
the other), construction deterministically fails with `CycleError`, and no
plan of any kind is produced. -/
theorem C6_multi_node_cycle_error (raw : String) (t : ParsedTree)
    (hns : check_skip_conditions raw t = false)
    (hnr : detect_recursive_ctes t = [])
    (hcyc : ∃ n m, n ≠ m ∧ ReachesG (builtGraph t) n m ∧ ReachesG (builtGraph t) m n) :
    decompose raw t = .error .cycleError := by
  rw [decompose_normal hns hnr]
  cases htopo : topoSort (builtGraph t) with
  | error e => cases e; rfl
  | ok order =>
    exfalso
    obtain ⟨n, m, hne, h1, h2⟩ := hcyc
    exact acyclic_of_topoSort_ok htopo n (Relation.TransGen.trans h1 h2)

/-- Witness for C6 at `cycleRaw` (two mutually referencing CTEs). -/
theorem C6_multi_node_cycle_error_witness :
    decompose cycleRaw cycleTree = .error .cycleError :=
  C6_multi_node_cycle_error cycleRaw cycleTree (by rfl) (by rfl)
    ⟨"a", "b", by decide, Relation.TransGen.single (by decide),
      Relation.TransGen.single (by decide)⟩

/-- C8 counterexample: `createRaw` contains zero CTE definitions and is
not skipped, yet the emitted plan is empty — there is no `FINAL_RESULT`
step at all, because the parse tree has no `SELECT` node and the sentinel
entry is never created. -/
theorem C8_no_select_counterexample :
    createTree.ctes = [] ∧
    check_skip_conditions createRaw createTree = false ∧
    decompose createRaw createTree = .ok
      { ctes := [], dependencies := [], queries := [], recursiveCtes := [],
        hasRecursive := false, skipDecomposition := false, skipReason := "" } :=
  ⟨rfl, by rfl, by rfl⟩

/-- C8 (amended): for every non-skipped input with zero CTE definitions
whose parse tree contains a `SELECT` node, the plan is exactly one step
named `FINAL_RESULT` with an empty dependency list whose sql is the
normalized rendering of the input. -/
theorem C8_zero_ctes_single_step (raw : String) (t : ParsedTree) (tbls : List String)
    (hns : check_skip_conditions raw t = false)
    (hc : t.ctes = [])
    (hm : t.mainSelectTables = some tbls) :
    decompose raw t = .ok
      { ctes := [], dependencies := [("__FINAL__", [])],
        queries := [⟨"FINAL_RESULT",
          normalize_cte_references t.finalSql (cteAliases t), []⟩],
        recursiveCtes := [], hasRecursive := false, skipDecomposition := false,
        skipReason := "" } := by
  have hnr : detect_recursive_ctes t = [] := by
    simp [detect_recursive_ctes, hc]
  have hal : cteAliases t = [] := by
    simp [cteAliases, hc, dedupFirst, dedupFirstAux]
  have hcd : ctesDict t = [] := by
    simp [ctesDict, hc, upsertFold]
  have hfm : tbls.filterMap (fun tb => lowerToOriginal ([] : List String) (lowerStr tb)) = [] := by
    induction tbls with
    | nil => rfl
    | cons a l ih => simpa [List.filterMap_cons, lowerToOriginal] using ih
  have hfd : finalDeps (cteAliases t) tbls = [] := by
    rw [hal]
    unfold finalDeps
    rw [hfm]
    rfl
  have hdd : depsDict t = [("__FINAL__", [])] := by
    simp [depsDict, hm, hc, hfd, upsertFold, alistUpsert]
  have hbg : builtGraph t = [("__FINAL__", [])] := by
    rw [builtGraph_eq_depsDict, hdd]
  rw [decompose_normal hns hnr, hbg, hcd, hdd, hnr]
  rfl

/-- Witness for the amended C8 at `plainRaw`. -/
theorem C8_zero_ctes_single_step_witness :
    decompose plainRaw plainTree = .ok
      { ctes := [], dependencies := [("__FINAL__", [])],
        queries := [⟨"FINAL_RESULT",
          normalize_cte_references plainTree.finalSql (cteAliases plainTree), []⟩],
        recursiveCtes := [], hasRecursive := false, skipDecomposition := false,
        skipReason := "" } :=
  C8_zero_ctes_single_step plainRaw plainTree ["employees"] (by rfl) rfl rfl

/-- Kahn completeness: an acyclic graph is always fully ordered. -/
theorem topoSort_complete {g : List (String × List String)} (hacyc : Acyclic g) :
    ∃ order, topoSort g = .ok order := by
  cases htopo : topoSort g with
  | ok order => exact ⟨order, rfl⟩
  | error e =>
    exfalso
    unfold topoSort at htopo
    by_cases hl : (kahnGo g ((nodesOf g).length + 1) []).length = (nodesOf g).length
    · rw [if_pos hl] at htopo; cases htopo
    · clear htopo
      set r := kahnGo g ((nodesOf g).length + 1) [] with hr
      have hinv : KahnInv g r := kahnGo_inv _ _ (kahnInv_nil g)
      have hready : readyNodes g r = [] := kahnGo_stuck _ [] (kahnInv_nil g) (by omega)
      set S := (nodesOf g).filter (fun n => !(r.contains n)) with hS
      have hSne : S ≠ [] := by
        intro hnil
        have hsub : ∀ n ∈ nodesOf g, n ∈ r := by
          intro n hn
          by_contra hnr
          have hmem : n ∈ S := by
            rw [hS]
            exact List.mem_filter.mpr ⟨hn, by simpa using hnr⟩
          rw [hnil] at hmem
          simp at hmem
        have h1 : (nodesOf g).length ≤ r.length :=
          (List.subperm_of_subset (nodup_nodesOf g) hsub).length_le
        have h2 : r.length ≤ (nodesOf g).length := length_le_nodes hinv
        omega
      have hSpred : ∀ x ∈ S, ∃ y ∈ S, PredEdge g y x := by
        intro x hx
        obtain ⟨hxn, hxr⟩ := List.mem_filter.mp hx
        have hxr2 : x ∉ r := by simpa using hxr
        have hnot := List.filter_eq_nil.mp hready x hxn
        have hnall : ¬ ∀ p ∈ predsOf g x, p ∈ r := by
          intro hall
          apply hnot
          simp only [Bool.and_eq_true, Bool.not_eq_true', List.all_eq_true]
          refine ⟨by simpa using hxr2, fun p hp => by simpa using hall p hp⟩
        push_neg at hnall
        obtain ⟨p, hp, hpr⟩ := hnall
        refine ⟨p, ?_, hp⟩
        rw [hS]
        exact List.mem_filter.mpr ⟨predsOf_mem_nodesOf hp, by simpa using hpr⟩
      obtain ⟨z, hz⟩ := cycle_of_all_have_pred S hSne hSpred
      exact hacyc z hz

/-- The step emitted for any graph node exists: the node is the sentinel
or a declared CTE. -/
theorem emitQuery_isSome {t : ParsedTree} {fs : String} {al : List String} {n : String}
    (hn : n ∈ nodesOf (builtGraph t)) :
    ((emitQuery fs (ctesDict t) (depsDict t) al n).isSome : Prop) := by
  unfold emitQuery
  by_cases hfin : n = "__FINAL__"
  · simp [hfin]
  · rcases node_classification hn with h | h
    · exact absurd h hfin
    · obtain ⟨b, hb⟩ := Option.isSome_iff_exists.mp h
      simp [hfin, hb]

/-- The dependency field of any emitted step is the node's recorded
dependency list. -/
theorem emitQuery_deps {fs : String} {ctes : List (String × String)}
    {deps : List (String × List String)} {al : List String} {n : String}
    {q : DecomposedQuery} (h : emitQuery fs ctes deps al n = some q) :
    q.dependencies = (deps.lookup n).getD [] := by
  unfold emitQuery at h
  by_cases hfin : n = "__FINAL__"
  · subst hfin
    rw [if_pos rfl] at h
    cases h
    rfl
  · rw [if_neg hfin] at h
    cases hb : ctes.lookup n with
    | none => rw [hb] at h; cases h
    | some body => rw [hb] at h; cases h; rfl

/-- C1: for a non-skipped, non-recursive input with an acyclic dependency
graph, construction succeeds and the plan enumerates the graph nodes in a
duplicate-free total order covering every node exactly once, the step at
position `i` being the emission of the node at position `i`, and every
name in a step's dependency list occurring as a strictly earlier node of
the order — each CTE's prerequisites and all the final step's
dependencies are emitted before it. -/
theorem C1_topological_plan (raw : String) (t : ParsedTree)
    (hns : check_skip_conditions raw t = false)
    (hnr : detect_recursive_ctes t = [])
    (hacyc : Acyclic (builtGraph t)) :
    ∃ s order,
      decompose raw t = .ok s ∧
      topoSort (builtGraph t) = .ok order ∧
      order.Nodup ∧
      (∀ n, n ∈ order ↔ n ∈ nodesOf (builtGraph t)) ∧
      s.queries.length = order.length ∧
      (∀ i : Nat, ∀ hi : i < order.length, ∀ hq : i < s.queries.length,
        emitQuery (normalize_cte_references t.finalSql (cteAliases t))
          (ctesDict t) (depsDict t) (cteAliases t) (order.get ⟨i, hi⟩) =
          some (s.queries.get ⟨i, hq⟩)) ∧
      (∀ i : Nat, ∀ hq : i < s.queries.length,
        ∀ d ∈ (s.queries.get ⟨i, hq⟩).dependencies,
          ∃ j, ∃ hj : j < order.length, j < i ∧ order.get ⟨j, hj⟩ = d) := by
  obtain ⟨order, htopo⟩ := topoSort_complete hacyc
  have hfacts := topoSort_ok_facts htopo
  have hmem := topoSort_ok_mem htopo
  have hd := decompose_normal hns hnr
  rw [htopo] at hd
  simp only [Except.map] at hd
  have hsome : ∀ n ∈ order,
      ((emitQuery (normalize_cte_references t.finalSql (cteAliases t))
        (ctesDict t) (depsDict t) (cteAliases t) n).isSome : Prop) :=
    fun n hn => emitQuery_isSome ((hmem n).mp hn)
  have hfm := filterMap_all_some _ order hsome
  refine ⟨_, order, hd, htopo, hfacts.1.nodup, hmem, hfm.1, hfm.2, ?_⟩
  intro i hq d hd2
  have hi : i < order.length := by rw [← hfm.1]; exact hq
  have hemit := hfm.2 i hi hq
  have hdeq := emitQuery_deps hemit
  rw [hdeq] at hd2
  have hd3 : d ∈ predsOf (builtGraph t) (order.get ⟨i, hi⟩) := by
    unfold predsOf
    rw [builtGraph_eq_depsDict]
    exact hd2
  exact hfacts.1.resp i hi d hd3

/-- Witness for C1 at the diamond query. -/
theorem C1_topological_plan_witness :
    ∃ s order,
      decompose diamondRaw diamondTree = .ok s ∧
      topoSort (builtGraph diamondTree) = .ok order ∧
      order.Nodup ∧
      (∀ n, n ∈ order ↔ n ∈ nodesOf (builtGraph diamondTree)) ∧
      s.queries.length = order.length ∧
      (∀ i : Nat, ∀ hi : i < order.length, ∀ hq : i < s.queries.length,
        emitQuery (normalize_cte_references diamondTree.finalSql (cteAliases diamondTree))
          (ctesDict diamondTree) (depsDict diamondTree) (cteAliases diamondTree)
          (order.get ⟨i, hi⟩) =
          some (s.queries.get ⟨i, hq⟩)) ∧
      (∀ i : Nat, ∀ hq : i < s.queries.length,
        ∀ d ∈ (s.queries.get ⟨i, hq⟩).dependencies,
          ∃ j, ∃ hj : j < order.length, j < i ∧ order.get ⟨j, hj⟩ = d) :=
  C1_topological_plan diamondRaw diamondTree (by rfl) (by rfl)
    (acyclic_of_topoSort_ok (show topoSort (builtGraph diamondTree)
      = .ok ["a", "b", "c", "d", "__FINAL__"] from by rfl))

/-- C4 counterexample: `unionRaw` is non-skipped and non-recursive, yet
the emitted plan is `[a, FINAL_RESULT, b]` — the last element is the CTE
step `b`, not the final step.  The final query is the second branch of a
set operation, so `find(exp.Select)` only sees the first branch and `b`
never becomes a prerequisite of the sentinel; the sorter then emits the
sentinel in the first layer, before `b`. -/
theorem C4_final_not_last_counterexample :
    check_skip_conditions unionRaw unionTree = false ∧
    detect_recursive_ctes unionTree = [] ∧
    (decompose unionRaw unionTree).map (fun s => s.queries.map (fun q => q.name)) =
      .ok ["a", "FINAL_RESULT", "b"] ∧
    (decompose unionRaw unionTree).map
      (fun s => (s.queries.getLast?).map (fun q => q.name)) = .ok (some "b") :=
  ⟨by rfl, by rfl, by rfl, by rfl⟩

/-- C4 (amended): for a non-skipped, non-recursive input whose graph is
acyclic, contains the sentinel node, and in which every other node is a
direct or transitive prerequisite of the sentinel (the final query
references every CTE, the common single-SELECT case), the last element of
the emitted plan is the `FINAL_RESULT` step; a sentinel whose dependency
set misses a CTE may instead be emitted before it.  A skip or recursive
short-circuit replaces the plan with the single original-query step,
which is then also last. -/
theorem C4_final_step_last (raw : String) (t : ParsedTree) :
    (check_skip_conditions raw t = true →
      ∃ s, decompose raw t = .ok s ∧ s.queries = [⟨"FINAL_RESULT", raw, []⟩])
    ∧ (check_skip_conditions raw t = false → detect_recursive_ctes t ≠ [] →
      ∃ s, decompose raw t = .ok s ∧ s.queries = [⟨"FINAL_RESULT", raw, []⟩])
    ∧ (check_skip_conditions raw t = false → detect_recursive_ctes t = [] →
      Acyclic (builtGraph t) → "__FINAL__" ∈ nodesOf (builtGraph t) →
      (∀ n ∈ nodesOf (builtGraph t), n ≠ "__FINAL__" →
        ReachesG (builtGraph t) n "__FINAL__") →
      ∃ s q, decompose raw t = .ok s ∧ s.queries.getLast? = some q ∧
        q.name = "FINAL_RESULT") := by
  refine ⟨?_, ?_, ?_⟩
  · intro h
    exact ⟨_, decompose_skip h, rfl⟩
  · intro hns hr
    exact ⟨_, decompose_recursive hns hr, rfl⟩
  · intro hns hnr hacyc hfin hreach
    obtain ⟨order, htopo⟩ := topoSort_complete hacyc
    have hfacts := topoSort_ok_facts htopo
    have hmem := topoSort_ok_mem htopo
    have hford : "__FINAL__" ∈ order := (hmem _).mpr hfin
    have hne : order ≠ [] := fun h => by rw [h] at hford; simp at hford
    have hlen0 : 0 < order.length := List.length_pos.mpr hne
    have hgl : order.getLast hne = order.get ⟨order.length - 1, by omega⟩ := by
      simp [List.getLast_eq_get]
    have hlast : order.getLast hne = "__FINAL__" := by
      by_contra hlast
      have hlmem : order.getLast hne ∈ order := List.getLast_mem hne
      have hlr : ReachesG (builtGraph t) (order.getLast hne) "__FINAL__" :=
        hreach _ ((hmem _).mp hlmem) hlast
      obtain ⟨_, hlt⟩ := reaches_indexOf_lt htopo hlr
      have h1 : order.indexOf (order.getLast hne) < order.length :=
        List.indexOf_lt_length.mpr hlmem
      have h2 : order.get ⟨order.indexOf (order.getLast hne), h1⟩ = order.getLast hne :=
        List.indexOf_get h1
      have h3 : (⟨order.indexOf (order.getLast hne), h1⟩ : Fin order.length) =
          ⟨order.length - 1, by omega⟩ :=
        (List.Nodup.get_inj_iff hfacts.1.nodup).mp (by rw [h2, hgl])
      have hidxlast : order.indexOf (order.getLast hne) = order.length - 1 :=
        congrArg Fin.val h3
      have hidxf : order.indexOf "__FINAL__" < order.length :=
        List.indexOf_lt_length.mpr hford
      omega
    have hd := decompose_normal hns hnr
    rw [htopo] at hd
    simp only [Except.map] at hd
    have hsome : ∀ n ∈ order,
        ((emitQuery (normalize_cte_references t.finalSql (cteAliases t))
          (ctesDict t) (depsDict t) (cteAliases t) n).isSome : Prop) :=
      fun n hn => emitQuery_isSome ((hmem n).mp hn)
    have hfm := filterMap_all_some _ order hsome
    have hqlen0 : 0 < (order.filterMap (emitQuery
        (normalize_cte_references t.finalSql (cteAliases t))
        (ctesDict t) (depsDict t) (cteAliases t))).length := by
      rw [hfm.1]; omega
    set qs := order.filterMap (emitQuery
      (normalize_cte_references t.finalSql (cteAliases t))
      (ctesDict t) (depsDict t) (cteAliases t)) with hqs
    have hqne : qs ≠ [] := by
      intro hq0
      rw [hq0] at hqlen0
      simp at hqlen0
    have hidx : order.length - 1 < qs.length := by rw [hfm.1]; omega
    have hget := hfm.2 (order.length - 1) (by omega) hidx
    rw [← hgl, hlast] at hget
    have hemitf : emitQuery (normalize_cte_references t.finalSql (cteAliases t))
        (ctesDict t) (depsDict t) (cteAliases t) "__FINAL__" =
        some ⟨"FINAL_RESULT", normalize_cte_references t.finalSql (cteAliases t),
          ((depsDict t).lookup "__FINAL__").getD []⟩ := by
      unfold emitQuery
      rw [if_pos rfl]
    rw [hemitf] at hget
    have hqval : qs.get ⟨order.length - 1, hidx⟩ =
        ⟨"FINAL_RESULT", normalize_cte_references t.finalSql (cteAliases t),
          ((depsDict t).lookup "__FINAL__").getD []⟩ :=
      (Option.some_inj.mp hget).symm
    refine ⟨_, qs.get ⟨order.length - 1, hidx⟩, hd, ?_, by rw [hqval]⟩
    have h5 : qs.getLast? = some (qs.getLast hqne) := List.getLast?_eq_getLast qs hqne
    have h7 : qs.length - 1 = order.length - 1 := by rw [hfm.1]
    have h6 : qs.getLast hqne = qs.get ⟨order.length - 1, hidx⟩ := by
      rw [List.getLast_eq_get]
      congr 1
      apply Fin.eq_of_val_eq
      show qs.length - 1 = order.length - 1
      exact h7
    rw [h5, h6]

/-- Witness for the amended C4: the skip input, the recursive input, and
the diamond query, where every CTE is a direct prerequisite of the
sentinel. -/
theorem C4_final_step_last_witness :
    (∃ s, decompose skipRaw skipTree = .ok s ∧
      s.queries = [⟨"FINAL_RESULT", skipRaw, []⟩])
    ∧ (∃ s, decompose recRaw recTree = .ok s ∧
      s.queries = [⟨"FINAL_RESULT", recRaw, []⟩])
    ∧ (∃ s q, decompose diamondRaw diamondTree = .ok s ∧
      s.queries.getLast? = some q ∧ q.name = "FINAL_RESULT") :=
  ⟨(C4_final_step_last skipRaw skipTree).1 (by rfl),
   (C4_final_step_last recRaw recTree).2.1 (by rfl) (by decide),
   (C4_final_step_last diamondRaw diamondTree).2.2 (by rfl) (by rfl)
    (acyclic_of_topoSort_ok (show topoSort (builtGraph diamondTree)
      = .ok ["a", "b", "c", "d", "__FINAL__"] from by rfl))
    (by decide)
    (by
      intro n hn hne
      have hnodes : nodesOf (builtGraph diamondTree) =
          ["a", "b", "c", "d", "__FINAL__"] := by rfl
      rw [hnodes] at hn
      simp only [List.mem_cons, List.not_mem_nil, or_false] at hn
      rcases hn with rfl | rfl | rfl | rfl | rfl
      · exact Relation.TransGen.single (by decide)
      · exact Relation.TransGen.single (by decide)
      · exact Relation.TransGen.single (by decide)
      · exact Relation.TransGen.single (by decide)
      · exact absurd rfl hne)⟩

/-- C9: in a non-skipped, non-recursive construction, every emitted step
is either the sentinel step — name `FINAL_RESULT`, sql the normalized
final body, dependencies the sentinel's recorded dependency set — or a
CTE step: its name is the CTE's original alias, its sql is exactly
`CREATE OR REPLACE TEMP TABLE `, the upper-cased name, ` AS`, a newline
and the normalized CTE body, and its dependencies are that node's recorded
dependency set. -/
theorem C9_emitted_step_shapes (raw : String) (t : ParsedTree)
    (hns : check_skip_conditions raw t = false)
    (hnr : detect_recursive_ctes t = []) :
    ∀ s, decompose raw t = .ok s → ∀ q ∈ s.queries,
      (q.name = "FINAL_RESULT" ∧
        q.sql = normalize_cte_references t.finalSql (cteAliases t) ∧
        q.dependencies = ((depsDict t).lookup "__FINAL__").getD []) ∨
      ((∃ c ∈ t.ctes, c.aliasName = q.name) ∧
        ∃ body, (ctesDict t).lookup q.name = some body ∧
          q.sql = "CREATE OR REPLACE TEMP TABLE " ++ upperStr q.name ++ " AS\n" ++
            normalize_cte_references body (cteAliases t) ∧
          q.dependencies = ((depsDict t).lookup q.name).getD []) := by
  intro s hd q hq
  rw [decompose_normal hns hnr] at hd
  cases htopo : topoSort (builtGraph t) with
  | error e => rw [htopo] at hd; simp [Except.map] at hd
  | ok order =>
    rw [htopo] at hd
    simp only [Except.map, Except.ok.injEq] at hd
    rw [← hd] at hq
    simp only at hq
    obtain ⟨n, hn, he⟩ := List.mem_filterMap.mp hq
    unfold emitQuery at he
    by_cases hfin : n = "__FINAL__"
    · rw [if_pos hfin] at he
      cases he
      exact Or.inl ⟨rfl, rfl, rfl⟩
    · rw [if_neg hfin] at he
      cases hb : (ctesDict t).lookup n with
      | none => rw [hb] at he; cases he
      | some body =>
        rw [hb] at he
        cases he
        obtain ⟨c, hc, hcn, _⟩ := ctesDict_some_elim hb
        exact Or.inr ⟨⟨c, hc, hcn⟩, body, hb, rfl, rfl⟩

/-- Witness for C9 at the diamond query, whose plan has five steps. -/
theorem C9_emitted_step_shapes_witness :
    diamondState.queries ≠ [] ∧
    ∀ q ∈ diamondState.queries,
      (q.name = "FINAL_RESULT" ∧
        q.sql = normalize_cte_references diamondTree.finalSql (cteAliases diamondTree) ∧
        q.dependencies = ((depsDict diamondTree).lookup "__FINAL__").getD []) ∨
      ((∃ c ∈ diamondTree.ctes, c.aliasName = q.name) ∧
        ∃ body, (ctesDict diamondTree).lookup q.name = some body ∧
          q.sql = "CREATE OR REPLACE TEMP TABLE " ++ upperStr q.name ++ " AS\n" ++
            normalize_cte_references body (cteAliases diamondTree) ∧
          q.dependencies = ((depsDict diamondTree).lookup q.name).getD []) :=
  ⟨by decide, C9_emitted_step_shapes diamondRaw diamondTree (by rfl) (by rfl)
    diamondState (by decide)⟩

theorem uint32_le_iff (a b : UInt32) : a ≤ b ↔ a.toNat ≤ b.toNat := Iff.rfl

theorem u48 : (48 : UInt32).toNat = 48 := rfl

theorem u57 : (57 : UInt32).toNat = 57 := rfl

theorem u65 : (65 : UInt32).toNat = 65 := rfl

theorem u90 : (90 : UInt32).toNat = 90 := rfl

theorem u97 : (97 : UInt32).toNat = 97 := rfl

theorem u122 : (122 : UInt32).toNat = 122 := rfl

theorem char_toNat_ofNat {m : Nat} (h : m < 55296) : (Char.ofNat m).toNat = m := by
  unfold Char.ofNat
  rw [dif_pos (Or.inl h : Nat.isValidChar m)]
  rfl

theorem char_toNat_inj {a b : Char} (h : a.toNat = b.toNat) : a = b := by
  apply Char.ext
  exact (UInt32.ext_iff).mpr h

theorem toLower_toNat (c : Char) :
    (Char.toLower c).toNat = if 65 ≤ c.toNat ∧ c.toNat ≤ 90 then c.toNat + 32 else c.toNat := by
  unfold Char.toLower
  by_cases h : c.toNat ≥ 65 ∧ c.toNat ≤ 90
  · rw [if_pos h, if_pos ⟨h.1, h.2⟩]
    exact char_toNat_ofNat (by omega)
  · rw [if_neg h, if_neg (fun hh => h ⟨hh.1, hh.2⟩)]

theorem toUpper_toNat (c : Char) :
    (Char.toUpper c).toNat = if 97 ≤ c.toNat ∧ c.toNat ≤ 122 then c.toNat - 32 else c.toNat := by
  unfold Char.toUpper
  by_cases h : c.toNat ≥ 97 ∧ c.toNat ≤ 122
  · rw [if_pos h, if_pos ⟨h.1, h.2⟩]
    exact char_toNat_ofNat (by omega)
  · rw [if_neg h, if_neg (fun hh => h ⟨hh.1, hh.2⟩)]

theorem isWordChar_iff (c : Char) : isWordChar c = true ↔
    (65 ≤ c.toNat ∧ c.toNat ≤ 90) ∨ (97 ≤ c.toNat ∧ c.toNat ≤ 122) ∨
    (48 ≤ c.toNat ∧ c.toNat ≤ 57) ∨ c.toNat = 95 := by
  have h95 : (c = '_') ↔ c.toNat = 95 :=
    ⟨fun h => by rw [h]; rfl, fun h => char_toNat_inj (by rw [h]; rfl)⟩
  unfold isWordChar Char.isAlpha Char.isUpper Char.isLower Char.isDigit
  simp only [Bool.or_eq_true, Bool.and_eq_true, decide_eq_true_eq, ge_iff_le,
    uint32_le_iff, u48, u57, u65, u90, u97, u122]
  rw [h95]
  tauto

theorem isWordChar_toLower (c : Char) : isWordChar (Char.toLower c) = isWordChar c := by
  by_cases h : 65 ≤ c.toNat ∧ c.toNat ≤ 90
  · have h2 : isWordChar (Char.toLower c) = true := by
      refine (isWordChar_iff _).mpr (Or.inr (Or.inl ?_))
      rw [toLower_toNat, if_pos h]
      omega
    have h3 : isWordChar c = true := (isWordChar_iff _).mpr (Or.inl h)
    rw [h2, h3]
  · have h1 : (Char.toLower c).toNat = c.toNat := by rw [toLower_toNat, if_neg h]
    rw [char_toNat_inj h1]

theorem isWordChar_toUpper (c : Char) : isWordChar (Char.toUpper c) = isWordChar c := by
  by_cases h : 97 ≤ c.toNat ∧ c.toNat ≤ 122
  · have h2 : isWordChar (Char.toUpper c) = true := by
      refine (isWordChar_iff _).mpr (Or.inl ?_)
      rw [toUpper_toNat, if_pos h]
      omega
    have h3 : isWordChar c = true := (isWordChar_iff _).mpr (Or.inr (Or.inl h))
    rw [h2, h3]
  · have h1 : (Char.toUpper c).toNat = c.toNat := by rw [toUpper_toNat, if_neg h]
    rw [char_toNat_inj h1]

theorem toLower_toUpper (c : Char) : Char.toLower (Char.toUpper c) = Char.toLower c := by
  by_cases h : 97 ≤ c.toNat ∧ c.toNat ≤ 122
  · have h1 : (Char.toUpper c).toNat = c.toNat - 32 := by rw [toUpper_toNat, if_pos h]
    apply char_toNat_inj
    rw [toLower_toNat, toLower_toNat, h1, if_pos (by omega), if_neg (by omega)]
    omega
  · have h1 : (Char.toUpper c).toNat = c.toNat := by rw [toUpper_toNat, if_neg h]
    rw [char_toNat_inj h1]

theorem charCI_iff {a b : Char} : charCI a b = true ↔ a.toLower = b.toLower := by
  simp [charCI]

theorem charCI_word {a b : Char} (h : charCI a b = true) :
    isWordChar a = isWordChar b := by
  have he : a.toLower = b.toLower := charCI_iff.mp h
  calc isWordChar a = isWordChar a.toLower := (isWordChar_toLower a).symm
    _ = isWordChar b.toLower := by rw [he]
    _ = isWordChar b := isWordChar_toLower b

theorem ciEqL_iff {a b : List Char} :
    ciEqL a b = true ↔ a.map Char.toLower = b.map Char.toLower := by
  induction a generalizing b with
  | nil => cases b <;> simp [ciEqL]
  | cons x xs ih =>
    cases b with
    | nil => simp [ciEqL]
    | cons y ys =>
      simp [ciEqL, Bool.and_eq_true, charCI_iff, ih]

theorem ciEqL_length {a b : List Char} (h : ciEqL a b = true) : a.length = b.length := by
  have := ciEqL_iff.mp h
  have h2 := congrArg List.length this
  simpa using h2

theorem ciEqL_map_toUpper (l : List Char) : ciEqL (l.map Char.toUpper) l = true := by
  rw [ciEqL_iff, List.map_map]
  refine List.map_congr_left ?_
  intro c _
  exact toLower_toUpper c

theorem ciEqL_all_word {pre n : List Char} (h : ciEqL pre n = true)
    (hw : ∀ c ∈ n, isWordChar c = true) : ∀ c ∈ pre, isWordChar c = true := by
  induction pre generalizing n with
  | nil => simp
  | cons x xs ih =>
    cases n with
    | nil => simp [ciEqL] at h
    | cons y ys =>
      simp only [ciEqL, Bool.and_eq_true] at h
      intro c hc
      rcases List.mem_cons.mp hc with rfl | hc
      · rw [charCI_word h.1]
        exact hw y (List.mem_cons_self _ _)
      · exact ih h.2 (fun d hd => hw d (List.mem_cons_of_mem _ hd)) c hc

theorem ciEqL_false_head_nonword {c : Char} {t n : List Char}
    (hc : isWordChar c = false) (hn : n ≠ []) (hw : ∀ d ∈ n, isWordChar d = true) :
    ciEqL (c :: t) n = false := by
  cases n with
  | nil => exact absurd rfl hn
  | cons y ys =>
    simp only [ciEqL, Bool.and_eq_false_iff]
    left
    by_contra hcc
    have := charCI_word (by simpa using hcc)
    rw [hc] at this
    exact absurd (this ▸ hw y (List.mem_cons_self _ _)) (by simp [← this, hc])

theorem charCI_symm {a b : Char} (h : charCI a b = true) : charCI b a = true :=
  charCI_iff.mpr (charCI_iff.mp h).symm

theorem stripCI_of_ciEq {w n r : List Char} (h : ciEqL w n = true) :
    stripCI n (w ++ r) = some r := by
  induction w generalizing n with
  | nil =>
    cases n with
    | nil => rfl
    | cons y ys => simp [ciEqL] at h
  | cons x xs ih =>
    cases n with
    | nil => simp [ciEqL] at h
    | cons y ys =>
      simp only [ciEqL, Bool.and_eq_true] at h
      simp only [List.cons_append, stripCI]
      rw [if_pos (charCI_symm h.1)]
      exact ih h.2

theorem stripCI_some_decomp {n s r : List Char} (h : stripCI n s = some r) :
    ∃ pre, s = pre ++ r ∧ ciEqL pre n = true := by
  induction n generalizing s with
  | nil =>
    simp only [stripCI, Option.some_inj] at h
    exact ⟨[], by rw [h]; rfl, rfl⟩
  | cons y ys ih =>
    cases s with
    | nil => simp [stripCI] at h
    | cons c cs =>
      simp only [stripCI] at h
      split at h
      · obtain ⟨pre, hpre, hci⟩ := ih h
        refine ⟨c :: pre, by rw [hpre]; rfl, ?_⟩
        simp only [ciEqL, Bool.and_eq_true]
        rename_i hcc
        exact ⟨charCI_symm hcc, hci⟩
      · cases h

theorem stripCI_none_head {c : Char} {cs n : List Char} (hc : isWordChar c = false)
    (hn : n ≠ []) (hw : ∀ d ∈ n, isWordChar d = true) :
    stripCI n (c :: cs) = none := by
  cases n with
  | nil => exact absurd rfl hn
  | cons y ys =>
    simp only [stripCI]
    rw [if_neg]
    intro hcc
    have h1 := charCI_word hcc
    rw [hw y (List.mem_cons_self _ _), hc] at h1
    cases h1

theorem subQuotedF_id (name upper : List Char) (fuel : Nat) {s : List Char}
    (h : '"' ∉ s) : subQuotedF name upper fuel s = s := by
  induction fuel generalizing s with
  | zero => cases s <;> rfl
  | succ fuel ih =>
    cases s with
    | nil => rfl
    | cons c cs =>
      have hc : ¬ c = '"' := fun hh => h (hh ▸ List.mem_cons_self _ _)
      simp only [subQuotedF]
      rw [if_neg hc, ih (fun hm => h (List.mem_cons_of_mem _ hm))]

theorem strReplaceF_id (rest repl : List Char) (fuel : Nat) {s : List Char}
    (h : '"' ∉ s) : strReplaceF ('"' :: rest) repl fuel s = s := by
  induction fuel generalizing s with
  | zero => cases s <;> rfl
  | succ fuel ih =>
    cases s with
    | nil => rfl
    | cons c cs =>
      have hc : ¬ c = '"' := fun hh => h (hh ▸ List.mem_cons_self _ _)
      have hb : ('"' == c) = false := beq_eq_false_iff_ne.mpr (fun hh => hc hh.symm)
      simp only [strReplaceF, List.isPrefixOf, hb, Bool.false_and, Bool.and_eq_true]
      rw [if_neg (by simp), ih (fun hm => h (List.mem_cons_of_mem _ hm))]

theorem tokens_nil : tokens [] = [] := by
  rw [tokens]

theorem tokens_cons_word {c : Char} {cs : List Char} (h : isWordChar c = true) :
    tokens (c :: cs) =
      ((c :: cs).takeWhile isWordChar) :: tokens ((c :: cs).dropWhile isWordChar) := by
  rw [tokens]
  rw [dif_pos h]

theorem tokens_cons_nonword {c : Char} {cs : List Char} (h : isWordChar c = false) :
    tokens (c :: cs) = [c] :: tokens cs := by
  rw [tokens]
  rw [dif_neg (by simp [h])]

theorem tokens_flatten_aux (N : Nat) :
    ∀ s : List Char, s.length ≤ N → (tokens s).flatten = s := by
  induction N with
  | zero =>
    intro s hs
    have h0 : s = [] := List.length_eq_zero.mp (by omega)
    rw [h0, tokens_nil]
    rfl
  | succ N ih =>
    intro s hs
    cases s with
    | nil => rw [tokens_nil]; rfl
    | cons c cs =>
      by_cases hw : isWordChar c = true
      · rw [tokens_cons_word hw]
        have hdrop : (c :: cs).dropWhile isWordChar = cs.dropWhile isWordChar := by
          rw [List.dropWhile_cons]
          simp [hw]
        have hlen : ((c :: cs).dropWhile isWordChar).length ≤ N := by
          rw [hdrop]
          have hsl : (cs.dropWhile isWordChar).length ≤ cs.length :=
            (List.dropWhile_sublist isWordChar).length_le
          simp at hs
          omega
        rw [List.flatten_cons, ih _ hlen, List.takeWhile_append_dropWhile]
      · rw [tokens_cons_nonword (by simpa using hw)]
        have hlen : cs.length ≤ N := by simp at hs; omega
        rw [List.flatten_cons, ih cs hlen]
        rfl

theorem tokens_flatten (s : List Char) : (tokens s).flatten = s :=
  tokens_flatten_aux s.length s le_rfl

theorem mem_of_mem_tokens {s tok : List Char} {c : Char}
    (htok : tok ∈ tokens s) (hc : c ∈ tok) : c ∈ s := by
  rw [← tokens_flatten s]
  exact List.mem_flatten.mpr ⟨tok, htok, hc⟩

theorem takeWhile_append_all {p : Char → Bool} {l1 : List Char} (l2 : List Char)
    (h : ∀ c ∈ l1, p c = true) :
    (l1 ++ l2).takeWhile p = l1 ++ l2.takeWhile p := by
  induction l1 with
  | nil => rfl
  | cons x xs ih =>
    simp only [List.cons_append, List.takeWhile_cons, h x (List.mem_cons_self _ _), if_true]
    rw [ih (fun c hc => h c (List.mem_cons_of_mem _ hc))]

theorem dropWhile_append_all {p : Char → Bool} {l1 : List Char} (l2 : List Char)
    (h : ∀ c ∈ l1, p c = true) :
    (l1 ++ l2).dropWhile p = l2.dropWhile p := by
  induction l1 with
  | nil => rfl
  | cons x xs ih =>
    simp only [List.cons_append, List.dropWhile_cons, h x (List.mem_cons_self _ _), if_true]
    exact ih (fun c hc => h c (List.mem_cons_of_mem _ hc))

theorem head_dropWhile_false {p : Char → Bool} {l : List Char} {c : Char}
    (h : (l.dropWhile p).head? = some c) : p c = false := by
  induction l with
  | nil => simp [List.dropWhile] at h
  | cons x xs ih =>
    rw [List.dropWhile_cons] at h
    by_cases hp : p x = true
    · rw [if_pos hp] at h
      exact ih h
    · rw [if_neg hp] at h
      simp only [List.head?_cons, Option.some_inj] at h
      rw [← h]
      simpa using hp

theorem isWordChar_quote : isWordChar '"' = false := by decide

/-- The word-bounded substitution pass acts tokenwise on quote-free text:
a maximal identifier run equal to the name up to case becomes `up`, and
everything else is copied.  `prev` tracks the previous source character;
when it is an identifier character the scan is in the middle of a run,
whose remainder is copied verbatim. -/
theorem subUnquotedF_tokens (n up : List Char) (hne : n ≠ [])
    (hword : ∀ c ∈ n, isWordChar c = true) :
    ∀ fuel : Nat, ∀ s : List Char, ∀ prev : Option Char, s.length ≤ fuel → '"' ∉ s →
      (∀ pc, prev = some pc → pc ≠ '"') →
      subUnquotedF n up fuel prev s =
        if looseEdge prev then ((tokens s).map (substOne n up)).flatten
        else s.takeWhile isWordChar ++
          ((tokens (s.dropWhile isWordChar)).map (substOne n up)).flatten := by
  intro fuel
  induction fuel with
  | zero =>
    intro s prev hlen hq hprev
    have h0 : s = [] := List.length_eq_zero.mp (by omega)
    subst h0
    have hval : subUnquotedF n up 0 prev [] = [] := rfl
    rw [hval]
    by_cases hp : looseEdge prev = true
    · rw [if_pos hp, tokens_nil]
      rfl
    · rw [if_neg hp]
      simp only [List.takeWhile_nil, List.dropWhile_nil, tokens_nil, List.map_nil,
        List.flatten_nil, List.nil_append]
  | succ fuel ih =>
    intro s prev hlen hq hprev
    cases s with
    | nil =>
      have hval : subUnquotedF n up (fuel + 1) prev [] = [] := rfl
      rw [hval]
      by_cases hp : looseEdge prev = true
      · rw [if_pos hp, tokens_nil]
        rfl
      · rw [if_neg hp]
        simp only [List.takeWhile_nil, List.dropWhile_nil, tokens_nil, List.map_nil,
          List.flatten_nil, List.nil_append]
    | cons c cs =>
      have hcq : c ≠ '"' := fun hh => hq (hh ▸ List.mem_cons_self _ _)
      have hcsq : '"' ∉ cs := fun hm => hq (List.mem_cons_of_mem _ hm)
      have hlen2 : cs.length ≤ fuel := by simp at hlen; omega
      by_cases hw : isWordChar c = true
      · -- c begins an identifier run
        have hwr : (c :: cs).takeWhile isWordChar ++ (c :: cs).dropWhile isWordChar
            = c :: cs := List.takeWhile_append_dropWhile _ _
        have hwweq : (c :: cs).takeWhile isWordChar = c :: cs.takeWhile isWordChar := by
          rw [List.takeWhile_cons]; simp [hw]
        have hreq : (c :: cs).dropWhile isWordChar = cs.dropWhile isWordChar := by
          rw [List.dropWhile_cons]; simp [hw]
        have hwall : ∀ d ∈ (c :: cs).takeWhile isWordChar, isWordChar d = true :=
          fun d hd => List.mem_takeWhile_imp hd
        have hwne : (c :: cs).takeWhile isWordChar ≠ [] := by rw [hwweq]; simp
        have hrhead : ∀ d, ((c :: cs).dropWhile isWordChar).head? = some d →
            isWordChar d = false := fun d hd => head_dropWhile_false hd
        have hrq : '"' ∉ (c :: cs).dropWhile isWordChar := fun hm =>
          hq (hwr ▸ List.mem_append.mpr (Or.inr hm))
        have hrlen : ((c :: cs).dropWhile isWordChar).length ≤ fuel := by
          have hl := congrArg List.length hwr
          simp only [List.length_append] at hl
          have hwlen : 0 < ((c :: cs).takeWhile isWordChar).length := by
            rw [hwweq]; simp
          simp only [List.length_cons] at hl
          omega
        have hrecin := ih cs (some c) hlen2 hcsq (fun pc hpc => by cases hpc; exact hcq)
        have hlc : looseEdge (some c) = false := by simp [looseEdge, hw]
        rw [hlc] at hrecin
        rw [if_neg (by simp)] at hrecin
        by_cases hciq : ciEqL ((c :: cs).takeWhile isWordChar) n = true
        · -- the whole run equals the name up to case
          have hstrip : stripCI n (c :: cs) = some ((c :: cs).dropWhile isWordChar) := by
            conv_lhs => rw [← hwr]
            exact stripCI_of_ciEq hciq
          have hrl : looseEdge ((c :: cs).dropWhile isWordChar).head? = true := by
            cases hr : ((c :: cs).dropWhile isWordChar).head? with
            | none => rfl
            | some d =>
              have hd1 : isWordChar d = false := hrhead d hr
              have hdmem : d ∈ (c :: cs).dropWhile isWordChar := by
                cases hrr : (c :: cs).dropWhile isWordChar with
                | nil => rw [hrr] at hr; cases hr
                | cons d0 rs =>
                  rw [hrr] at hr
                  simp only [List.head?_cons, Option.some_inj] at hr
                  rw [← hr]
                  exact List.mem_cons_self _ _
              have hd2 : d ≠ '"' := fun hh =>
                hq (hwr ▸ List.mem_append.mpr (Or.inr (hh ▸ hdmem)))
              simp [looseEdge, hd1, hd2]
          by_cases hp : looseEdge prev = true
          · -- a replacement happens here
            have hlw : ((c :: cs).takeWhile isWordChar).length = n.length :=
              ciEqL_length hciq
            have htake : (c :: cs).take n.length = (c :: cs).takeWhile isWordChar := by
              conv_lhs => rw [← hwr, ← hlw]
              exact List.take_left _ _
            have hcond : n.length ≠ 0 ∧ looseEdge prev = true ∧
                looseEdge ((c :: cs).dropWhile isWordChar).head? = true :=
              ⟨fun hh => hne (List.length_eq_zero.mp hh), hp, hrl⟩
            have hstep : subUnquotedF n up (fuel + 1) prev (c :: cs)
                = up ++ subUnquotedF n up fuel
                    (((c :: cs).take n.length).getLast?)
                    ((c :: cs).dropWhile isWordChar) := by
              simp only [subUnquotedF]
              rw [hstrip]
              exact if_pos hcond
            rw [hstep, htake, List.getLast?_eq_getLast _ hwne]
            have hlww : isWordChar (((c :: cs).takeWhile isWordChar).getLast hwne) = true :=
              hwall _ (List.getLast_mem hwne)
            have hlwq : ((c :: cs).takeWhile isWordChar).getLast hwne ≠ '"' := by
              intro hh
              rw [hh, isWordChar_quote] at hlww
              cases hlww
            have hrec := ih ((c :: cs).dropWhile isWordChar)
              (some (((c :: cs).takeWhile isWordChar).getLast hwne)) hrlen hrq
              (fun pc hpc => by cases hpc; exact hlwq)
            have hledge2 : looseEdge
                (some (((c :: cs).takeWhile isWordChar).getLast hwne)) = false := by
              simp [looseEdge, hlww]
            rw [hledge2] at hrec
            rw [if_neg (by simp)] at hrec
            have hrt : ((c :: cs).dropWhile isWordChar).takeWhile isWordChar = [] := by
              cases hr : (c :: cs).dropWhile isWordChar with
              | nil => rfl
              | cons d rs =>
                have hd : isWordChar d = false := hrhead d (by rw [hr]; rfl)
                rw [List.takeWhile_cons]
                simp [hd]
            have hrd : ((c :: cs).dropWhile isWordChar).dropWhile isWordChar
                = (c :: cs).dropWhile isWordChar := by
              cases hr : (c :: cs).dropWhile isWordChar with
              | nil => rfl
              | cons d rs =>
                have hd : isWordChar d = false := hrhead d (by rw [hr]; rfl)
                rw [List.dropWhile_cons]
                simp [hd]
            rw [hrt, hrd] at hrec
            rw [hrec, if_pos hp, tokens_cons_word hw]
            simp only [List.map_cons, List.flatten_cons, List.nil_append]
            rw [show substOne n up ((c :: cs).takeWhile isWordChar) = up from by
              simp [substOne, hciq]]
          · -- the look-behind blocks the match; copy one character
            have hstep : subUnquotedF n up (fuel + 1) prev (c :: cs)
                = c :: subUnquotedF n up fuel (some c) cs := by
              simp only [subUnquotedF]
              rw [hstrip]
              exact if_neg (fun hcond => hp hcond.2.1)
            rw [hstep, hrecin, if_neg hp, hwweq, hreq]
            simp
        · -- the run differs from the name: no replacement in this run
          have hstep : subUnquotedF n up (fuel + 1) prev (c :: cs)
              = c :: subUnquotedF n up fuel (some c) cs := by
            simp only [subUnquotedF]
            cases hstrip : stripCI n (c :: cs) with
            | none => rfl
            | some rest =>
              obtain ⟨pre, hpre, hci⟩ := stripCI_some_decomp hstrip
              have hprew : ∀ d ∈ pre, isWordChar d = true := ciEqL_all_word hci hword
              have hwpre : (c :: cs).takeWhile isWordChar
                  = pre ++ rest.takeWhile isWordChar := by
                rw [hpre]
                exact takeWhile_append_all rest hprew
              cases hrest : rest with
              | nil =>
                exfalso
                apply hciq
                rw [hwpre, hrest]
                simpa using hci
              | cons d rs =>
                by_cases hd : isWordChar d = true
                · refine if_neg ?_
                  intro hcond
                  have hedge := hcond.2.2
                  simp [looseEdge, hd] at hedge
                · exfalso
                  apply hciq
                  rw [hwpre, hrest, List.takeWhile_cons]
                  simp only [hd, if_false]
                  simpa using hci
          rw [hstep, hrecin]
          by_cases hp : looseEdge prev = true
          · rw [if_pos hp, tokens_cons_word hw]
            simp only [List.map_cons, List.flatten_cons]
            rw [show substOne n up ((c :: cs).takeWhile isWordChar)
                = (c :: cs).takeWhile isWordChar from by simp [substOne, hciq]]
            rw [hwweq, hreq]
            simp
          · rw [if_neg hp, hwweq, hreq]
            simp
      · -- c is not an identifier character: it is its own token
        have hw2 : isWordChar c = false := by simpa using hw
        have hstrip : stripCI n (c :: cs) = none := stripCI_none_head hw2 hne hword
        have hrec := ih cs (some c) hlen2 hcsq (fun pc hpc => by cases hpc; exact hcq)
        have hledge : looseEdge (some c) = true := by simp [looseEdge, hw2, hcq]
        rw [if_pos (by rw [hledge])] at hrec
        have hstep : subUnquotedF n up (fuel + 1) prev (c :: cs)
            = c :: subUnquotedF n up fuel (some c) cs := by
          simp only [subUnquotedF]
          rw [hstrip]
        rw [hstep, hrec]
        have hsub : substOne n up [c] = [c] := by
          simp [substOne, ciEqL_false_head_nonword hw2 hne hword]
        by_cases hp : looseEdge prev = true
        · rw [if_pos hp, tokens_cons_nonword hw2]
          simp only [List.map_cons, List.flatten_cons, hsub]
          rfl
        · rw [if_neg hp]
          rw [List.takeWhile_cons, List.dropWhile_cons]
          simp only [hw2, if_false, Bool.false_eq_true]
          rw [tokens_cons_nonword hw2]
          simp only [List.map_cons, List.flatten_cons, hsub]
          rfl

theorem ciEqL_map_toUpper_left (l x : List Char) :
    ciEqL (l.map Char.toUpper) x = ciEqL l x := by
  have h1 : (l.map Char.toUpper).map Char.toLower = l.map Char.toLower := by
    rw [List.map_map]
    exact List.map_congr_left (fun c _ => toLower_toUpper c)
  cases hx : ciEqL l x with
  | false =>
    cases hy : ciEqL (l.map Char.toUpper) x with
    | false => rfl
    | true =>
      have h2 := ciEqL_iff.mp hy
      rw [h1] at h2
      rw [ciEqL_iff.mpr h2] at hx
      cases hx
  | true =>
    exact ciEqL_iff.mpr (h1.trans (ciEqL_iff.mp hx))

theorem tokens_word_run {w rest : List Char} (hw : w ≠ [])
    (hall : ∀ c ∈ w, isWordChar c = true)
    (hrest : ∀ d, rest.head? = some d → isWordChar d = false) :
    tokens (w ++ rest) = w :: tokens rest := by
  cases w with
  | nil => exact absurd rfl hw
  | cons a w2 =>
    have ha : isWordChar a = true := hall a (List.mem_cons_self _ _)
    have htr : rest.takeWhile isWordChar = [] := by
      cases rest with
      | nil => rfl
      | cons d rs =>
        rw [List.takeWhile_cons]
        simp [hrest d rfl]
    have hdr : rest.dropWhile isWordChar = rest := by
      cases rest with
      | nil => rfl
      | cons d rs =>
        rw [List.dropWhile_cons]
        simp [hrest d rfl]
    have h1 : (a :: (w2 ++ rest)).takeWhile isWordChar = a :: w2 := by
      have h := takeWhile_append_all rest hall
      rw [htr] at h
      simpa using h
    have h2 : (a :: (w2 ++ rest)).dropWhile isWordChar = rest := by
      have h := dropWhile_append_all rest hall
      rw [hdr] at h
      simpa using h
    calc tokens ((a :: w2) ++ rest) = tokens (a :: (w2 ++ rest)) := rfl
      _ = (a :: w2) :: tokens rest := by rw [tokens_cons_word ha, h1, h2]

theorem flatten_subst_head {n up r : List Char} (hn : n ≠ [])
    (hnw : ∀ c ∈ n, isWordChar c = true)
    (hr : ∀ d, r.head? = some d → isWordChar d = false) :
    ∀ d, (((tokens r).map (substOne n up)).flatten).head? = some d →
      isWordChar d = false := by
  cases r with
  | nil =>
    intro d hd
    rw [tokens_nil] at hd
    cases hd
  | cons e rs =>
    have he : isWordChar e = false := hr e rfl
    intro d hd
    rw [tokens_cons_nonword he] at hd
    simp only [List.map_cons, List.flatten_cons] at hd
    have hse : substOne n up [e] = [e] := by
      simp [substOne, ciEqL_false_head_nonword he hn hnw]
    rw [hse] at hd
    simp only [List.cons_append, List.head?_cons, Option.some_inj] at hd
    rw [← hd]
    exact he

theorem tokens_map_substOne_aux (n up : List Char) (hn : n ≠ [])
    (hnw : ∀ c ∈ n, isWordChar c = true) (hu : up ≠ [])
    (huw : ∀ c ∈ up, isWordChar c = true) :
    ∀ N : Nat, ∀ s : List Char, s.length ≤ N →
      tokens (((tokens s).map (substOne n up)).flatten)
        = (tokens s).map (substOne n up) := by
  intro N
  induction N with
  | zero =>
    intro s hlen
    have h0 : s = [] := List.length_eq_zero.mp (by omega)
    subst h0
    simp only [tokens_nil, List.map_nil, List.flatten_nil]
  | succ N ih =>
    intro s hlen
    cases s with
    | nil =>
      simp only [tokens_nil, List.map_nil, List.flatten_nil]
    | cons c cs =>
      by_cases hw : isWordChar c = true
      · have hwne : (c :: cs).takeWhile isWordChar ≠ [] := by
          rw [List.takeWhile_cons]
          simp [hw]
        have hwall : ∀ d ∈ (c :: cs).takeWhile isWordChar, isWordChar d = true :=
          fun d hd => List.mem_takeWhile_imp hd
        have hrhead : ∀ d, ((c :: cs).dropWhile isWordChar).head? = some d →
            isWordChar d = false := fun d hd => head_dropWhile_false hd
        have hrlen : ((c :: cs).dropWhile isWordChar).length ≤ N := by
          have h1 := congrArg List.length
            (show (c :: cs).takeWhile isWordChar ++ (c :: cs).dropWhile isWordChar
              = c :: cs from List.takeWhile_append_dropWhile isWordChar (c :: cs))
          simp only [List.length_append] at h1
          have h2 : 0 < ((c :: cs).takeWhile isWordChar).length := by
            cases hh : (c :: cs).takeWhile isWordChar with
            | nil => exact absurd hh hwne
            | cons _ _ => simp
          simp only [List.length_cons] at h1 hlen
          omega
        rw [tokens_cons_word hw]
        simp only [List.map_cons, List.flatten_cons]
        have hsub_ne : substOne n up ((c :: cs).takeWhile isWordChar) ≠ [] := by
          unfold substOne
          split
          · exact hu
          · exact hwne
        have hsub_word : ∀ d ∈ substOne n up ((c :: cs).takeWhile isWordChar),
            isWordChar d = true := by
          unfold substOne
          split
          · exact huw
          · exact hwall
        rw [tokens_word_run hsub_ne hsub_word (flatten_subst_head hn hnw hrhead)]
        rw [ih ((c :: cs).dropWhile isWordChar) hrlen]
      · have hw2 : isWordChar c = false := by simpa using hw
        have hlen2 : cs.length ≤ N := by
          simp only [List.length_cons] at hlen
          omega
        rw [tokens_cons_nonword hw2]
        simp only [List.map_cons, List.flatten_cons]
        have hse : substOne n up [c] = [c] := by
          simp [substOne, ciEqL_false_head_nonword hw2 hn hnw]
        rw [hse]
        simp only [List.cons_append, List.nil_append]
        rw [tokens_cons_nonword hw2, ih cs hlen2]

theorem tokens_map_substOne {n up s : List Char} (hn : n ≠ [])
    (hnw : ∀ c ∈ n, isWordChar c = true) (hu : up ≠ [])
    (huw : ∀ c ∈ up, isWordChar c = true) :
    tokens (((tokens s).map (substOne n up)).flatten)
      = (tokens s).map (substOne n up) :=
  tokens_map_substOne_aux n up hn hnw hu huw s.length s le_rfl

theorem quote_not_mem_subst {n up s : List Char}
    (huw : ∀ c ∈ up, isWordChar c = true) (hq : '"' ∉ s) :
    '"' ∉ ((tokens s).map (substOne n up)).flatten := by
  intro hm
  rw [List.mem_flatten] at hm
  obtain ⟨tok2, htok2, hc⟩ := hm
  rw [List.mem_map] at htok2
  obtain ⟨tok, htok, hsub⟩ := htok2
  rw [← hsub] at hc
  unfold substOne at hc
  split at hc
  · have h := huw _ hc
    rw [isWordChar_quote] at h
    cases h
  · exact hq (mem_of_mem_tokens htok hc)

theorem normalizeOne_tokens {s : List Char} {name : String} (hq : '"' ∉ s)
    (hn : name.toList ≠ []) (hw : ∀ c ∈ name.toList, isWordChar c = true) :
    normalizeOne s name
      = ((tokens s).map (substOne name.toList (upperStr name).toList)).flatten := by
  unfold normalizeOne
  show subUnquoted name.toList (upperStr name).toList none
      (strReplaceL ('"' :: ((lowerStr name).toList ++ ['"'])) (upperStr name).toList
        (strReplaceL ('"' :: ((upperStr name).toList ++ ['"'])) (upperStr name).toList
          (strReplaceL ('"' :: (name.toList ++ ['"'])) (upperStr name).toList
            (subQuoted name.toList (upperStr name).toList s)))) = _
  rw [show subQuoted name.toList (upperStr name).toList s = s from
    subQuotedF_id _ _ _ hq]
  rw [show strReplaceL ('"' :: (name.toList ++ ['"'])) (upperStr name).toList s = s from
    strReplaceF_id _ _ _ hq]
  rw [show strReplaceL ('"' :: ((upperStr name).toList ++ ['"']))
      (upperStr name).toList s = s from strReplaceF_id _ _ _ hq]
  rw [show strReplaceL ('"' :: ((lowerStr name).toList ++ ['"']))
      (upperStr name).toList s = s from strReplaceF_id _ _ _ hq]
  have h5 := subUnquotedF_tokens name.toList (upperStr name).toList hn hw s.length s
    none le_rfl hq (fun pc hpc => by cases hpc)
  rw [if_pos (by rfl)] at h5
  exact h5

theorem substTok_nil (tok : List Char) : substTok [] tok = tok := rfl

theorem substTok_cons_eq {m : String} {rest : List String} {tok : List Char}
    (hdist : ∀ m2 ∈ rest, ciEqL m.toList m2.toList = false) :
    substTok rest (substOne m.toList (upperStr m).toList tok)
      = substTok (m :: rest) tok := by
  by_cases h : ciEqL tok m.toList = true
  · have hrhs : substTok (m :: rest) tok = (upperStr m).toList := by
      unfold substTok
      have hfc : List.find? (fun m2 => ciEqL tok m2.toList) (m :: rest) = some m :=
        List.find?_cons_of_pos rest h
      rw [hfc]
    rw [hrhs]
    unfold substOne
    rw [if_pos h]
    unfold substTok
    have hfind : rest.find? (fun m2 => ciEqL (upperStr m).toList m2.toList) = none := by
      rw [List.find?_eq_none]
      intro m2 hm2
      show ¬ ciEqL (upperStr m).toList m2.toList = true
      have hc : ciEqL (upperStr m).toList m2.toList = false := by
        have hh : (upperStr m).toList = m.toList.map Char.toUpper := rfl
        rw [hh, ciEqL_map_toUpper_left]
        exact hdist m2 hm2
      rw [hc]
      simp
    rw [hfind]
  · have hrhs : substTok (m :: rest) tok = substTok rest tok := by
      unfold substTok
      have hfc : List.find? (fun m2 => ciEqL tok m2.toList) (m :: rest)
          = List.find? (fun m2 => ciEqL tok m2.toList) rest :=
        List.find?_cons_of_neg rest (by simpa using h)
      rw [hfc]
    rw [hrhs]
    unfold substOne
    rw [if_neg h]

theorem foldl_normalizeOne_tokens :
    ∀ (names : List String) (s : List Char), '"' ∉ s →
      (∀ m ∈ names, m.toList ≠ [] ∧ ∀ c ∈ m.toList, isWordChar c = true) →
      names.Pairwise (fun a b => ciEqL a.toList b.toList = false) →
      names.foldl normalizeOne s = ((tokens s).map (substTok names)).flatten := by
  intro names
  induction names with
  | nil =>
    intro s hq hok hp
    simp only [List.foldl_nil]
    have hmap : (tokens s).map (substTok []) = tokens s := by
      have h1 : (tokens s).map (substTok []) = (tokens s).map id :=
        List.map_congr_left (fun tok _ => substTok_nil tok)
      rw [h1, List.map_id]
    rw [hmap, tokens_flatten]
  | cons m rest ih =>
    intro s hq hok hp
    simp only [List.foldl_cons]
    have hm := hok m (List.mem_cons_self _ _)
    have hn1 : m.toList ≠ [] := hm.1
    have hw1 : ∀ c ∈ m.toList, isWordChar c = true := hm.2
    have hueq : (upperStr m).toList = m.toList.map Char.toUpper := rfl
    have hu1 : (upperStr m).toList ≠ [] := by
      rw [hueq]
      simp only [ne_eq, List.map_eq_nil_iff]
      exact hn1
    have huw1 : ∀ c ∈ (upperStr m).toList, isWordChar c = true := by
      rw [hueq]
      intro c hc
      rw [List.mem_map] at hc
      obtain ⟨d, hd, rfl⟩ := hc
      rw [isWordChar_toUpper]
      exact hw1 d hd
    rw [normalizeOne_tokens hq hn1 hw1]
    have hq2 : '"' ∉ ((tokens s).map (substOne m.toList (upperStr m).toList)).flatten :=
      quote_not_mem_subst huw1 hq
    rw [ih _ hq2 (fun m2 hm2 => hok m2 (List.mem_cons_of_mem _ hm2))
      (List.pairwise_cons.mp hp).2]
    rw [tokens_map_substOne hn1 hw1 hu1 huw1, List.map_map]
    refine congrArg List.flatten (List.map_congr_left ?_)
    intro tok _
    exact substTok_cons_eq (fun m2 hm2 => (List.pairwise_cons.mp hp).1 m2 hm2)

/-- C7 counterexample: the claim promises that every double-quoted
occurrence of a CTE name, in any casing, is rewritten to the upper-case
unquoted form.  On the input `"""my_cte"""` the engine's passes instead
produce `"MY_CTE"`, which still contains a double-quoted occurrence of the
name: the quoted occurrence `"my_cte"` sits between two further quote
characters, the case-insensitive quoted pass consumes the outer quotes
first, and the unquoted pass then rewrites the bare name between the two
remaining quotes, leaving them in place. -/
theorem C7_quoted_occurrence_counterexample :
    normalize_cte_references "\"\"\"my_cte\"\"\"" ["my_cte"] = "\"MY_CTE\""
      ∧ hasQuotedOcc "my_cte"
          (normalize_cte_references "\"\"\"my_cte\"\"\"" ["my_cte"]) = true := by
  constructor
  · decide
  · decide

/-- C7 (amended): on a quote-free SQL fragment, for non-empty CTE names
made of identifier characters and pairwise distinct up to case,
normalization acts tokenwise: every maximal identifier run that
case-insensitively equals one of the names becomes that name's upper-case
form, and every other character is left unchanged.  This rewriting is
applied to the final query body (the step named FINAL_RESULT carries the
normalized final body) and to every CTE body before it is wrapped in a
CREATE OR REPLACE TEMP TABLE statement. -/
theorem C7_canonical_rewrite_amended (sql : String) (names : List String)
    (raw : String) (t : ParsedTree) (st : DecomposerState)
    (hq : '"' ∉ sql.toList)
    (hok : ∀ m ∈ names, m.toList ≠ [] ∧ ∀ c ∈ m.toList, isWordChar c = true)
    (hdist : names.Pairwise (fun a b => ciEqL a.toList b.toList = false))
    (hskip : check_skip_conditions raw t = false)
    (hrec : detect_recursive_ctes t = [])
    (hok2 : decompose raw t = .ok st) :
    ((normalize_cte_references sql names).toList
        = ((tokens sql.toList).map (substTok names)).flatten)
    ∧ ∀ q ∈ st.queries,
        (q.name = "FINAL_RESULT"
            ∧ q.sql = normalize_cte_references t.finalSql (cteAliases t))
        ∨ ∃ body, (ctesDict t).lookup q.name = some body ∧
            q.sql = "CREATE OR REPLACE TEMP TABLE " ++ upperStr q.name ++ " AS\n"
              ++ normalize_cte_references body (cteAliases t) := by
  constructor
  · exact foldl_normalizeOne_tokens names sql.toList hq hok hdist
  · have hdn := decompose_normal hskip hrec
    rw [hok2] at hdn
    cases hts : topoSort (builtGraph t) with
    | error e =>
      rw [hts] at hdn
      exact Except.noConfusion hdn
    | ok order =>
      rw [hts] at hdn
      simp only [Except.map] at hdn
      injection hdn with hst
      intro q hqm
      rw [hst] at hqm
      simp only at hqm
      rw [List.mem_filterMap] at hqm
      obtain ⟨nn, hnn, hemit⟩ := hqm
      unfold emitQuery at hemit
      by_cases hfin : nn = "__FINAL__"
      · rw [if_pos hfin] at hemit
        injection hemit with he
        left
        rw [← he]
        exact ⟨rfl, rfl⟩
      · rw [if_neg hfin] at hemit
        cases hlk : List.lookup nn (ctesDict t) with
        | none =>
          rw [hlk] at hemit
          have hemit2 : (none : Option DecomposedQuery) = some q := hemit
          cases hemit2
        | some body =>
          rw [hlk] at hemit
          have hemit2 : some ((⟨nn,
              "CREATE OR REPLACE TEMP TABLE " ++ upperStr nn ++ " AS\n"
                ++ normalize_cte_references body (cteAliases t),
              ((depsDict t).lookup nn).getD []⟩ : DecomposedQuery))
              = some q := hemit
          injection hemit2 with he
          right
          refine ⟨body, ?_, ?_⟩
          · rw [← he]
            exact hlk
          · rw [← he]

/-- Witness for the amended C7 theorem: a concrete quote-free fragment
with one CTE name, and the diamond query's decomposition. -/
theorem C7_canonical_rewrite_amended_witness :
    ((normalize_cte_references "SELECT x FROM my_CTE JOIN amy_cte ON y"
          ["my_Cte"]).toList
        = ((tokens "SELECT x FROM my_CTE JOIN amy_cte ON y".toList).map
            (substTok ["my_Cte"])).flatten)
    ∧ ∀ q ∈ diamondState.queries,
        (q.name = "FINAL_RESULT"
            ∧ q.sql = normalize_cte_references diamondTree.finalSql
                (cteAliases diamondTree))
        ∨ ∃ body, (ctesDict diamondTree).lookup q.name = some body ∧
            q.sql = "CREATE OR REPLACE TEMP TABLE " ++ upperStr q.name ++ " AS\n"
              ++ normalize_cte_references body (cteAliases diamondTree) :=
  C7_canonical_rewrite_amended "SELECT x FROM my_CTE JOIN amy_cte ON y" ["my_Cte"]
    diamondRaw diamondTree diamondState (by decide) (by decide) (by decide)
    (by decide) (by decide) (by decide)

end Decomp
